import Mathlib

/-!
Shallow embedding of `cherrypy/lib/httputil.py` (HTTP header and
request-metadata parsing) together with proofs about its behaviour.

Strings are modelled as `List Char`; Python `int` as `ℤ`; fallible Python
code (statements that can raise) as `Except PyExn _`.  Python standard
library routines that the module calls (`str.split`, `str.strip`, `int()`,
`float()`, `cgi.parse_header`, `urllib.parse.unquote_plus`, `str.title`,
the status-code registry) are modelled here as well, since the module's
behaviour depends on them.  Numeric literals are modelled without Python's
underscore separators; `float()` q-values are modelled as exact decimal
fractions (an integer mantissa over a power of ten) rather than binary64,
which agrees with CPython on every comparison of distinct short decimals.
-/

namespace Httputil

/-- A raised Python exception (we only track the kind and message). -/
inductive PyExn where
  | valueError (msg : List Char)
  | httpError (code : Nat) (msg : List Char)
  | unicodeDecodeError (msg : List Char)
deriving DecidableEq, Repr

instance {ε α : Type} [DecidableEq ε] [DecidableEq α] : DecidableEq (Except ε α) := fun a b =>
  match a, b with
  | .ok x, .ok y => if h : x = y then .isTrue (by rw [h]) else .isFalse (by simp [h])
  | .error x, .error y => if h : x = y then .isTrue (by rw [h]) else .isFalse (by simp [h])
  | .ok _, .error _ => .isFalse (by simp)
  | .error _, .ok _ => .isFalse (by simp)

/-! ### Python string primitives -/

/-- Characters Python's `str.strip()` removes by default (ASCII range). -/
def isPySpace (c : Char) : Bool :=
  c = ' ' ∨ c = '\t' ∨ c = '\n' ∨ c = '\r' ∨ c = '\x0b' ∨ c = '\x0c'

/-- Python `str.strip()`. -/
def pyStrip (l : List Char) : List Char :=
  ((l.dropWhile isPySpace).reverse.dropWhile isPySpace).reverse

/-- Python `s.split(sep, 1)` followed by unpacking into two names:
`none` models the `ValueError` raised when `sep` is absent. -/
def splitOnce (sep : Char) : List Char → Option (List Char × List Char)
  | [] => none
  | c :: rest =>
    if c = sep then some ([], rest)
    else (splitOnce sep rest).map (fun p => (c :: p.1, p.2))

/-- Python `s.split(sep)` for a one-character separator. -/
def splitAll (sep : Char) : List Char → List (List Char)
  | [] => [[]]
  | c :: rest =>
    if c = sep then [] :: splitAll sep rest
    else
      match splitAll sep rest with
      | [] => [[c]]
      | s :: ss => (c :: s) :: ss

def allDigits (l : List Char) : Bool := l.all Char.isDigit

/-- Value of a digit string, most significant first. -/
def digitsVal (l : List Char) : Nat :=
  l.foldl (fun acc c => 10 * acc + (c.toNat - 48)) 0

/-- Parse a nonempty all-digit string. -/
def pyDigits (l : List Char) : Option Nat :=
  if l ≠ [] ∧ allDigits l then some (digitsVal l) else none

/-- Sign handling of Python `int(str)` after stripping. -/
def pyIntCore : List Char → Option Int
  | [] => none
  | c :: rest =>
    if c = '-' then (pyDigits rest).map (fun k => -(Int.ofNat k))
    else if c = '+' then (pyDigits rest).map Int.ofNat
    else (pyDigits (c :: rest)).map Int.ofNat

/-- Python `int(s)` for a string argument: optional surrounding whitespace,
optional sign, then decimal digits; `none` models `ValueError`. -/
def pyIntL (l : List Char) : Option Int := pyIntCore (pyStrip l)

/-- Decimal rendering of a natural number (used to state the general
range-parsing theorems over arbitrary numerals). -/
def natStr (n : Nat) : List Char :=
  if h : n < 10 then [Char.ofNat (48 + n)]
  else natStr (n / 10) ++ [Char.ofNat (48 + n % 10)]
decreasing_by exact Nat.div_lt_self (by omega) (by omega)

/-! ### `get_ranges` -/

/-- The loop body of `get_ranges` for one comma-separated spec
`start-stop`.  The outcome mirrors the body's control flow: `.error` a
raised `ValueError` (failed unpacking or `int()`), `.ok none` the
`return None` paths, `.ok (some none)` the `continue` (dropped spec),
`.ok (some (some p))` a `result.append(p)`.  `start` and `stop` are the
stripped halves (written out: the code's local variables `start`/`stop`). -/
def rangeStep (n : Int) (brange : List Char) :
    Except PyExn (Option (Option (Int × Int))) :=
  match splitOnce '-' brange with
  | none => .error (.valueError ('u' :: 'n' :: 'p' :: 'a' :: 'c' :: 'k' :: []))
  | some (s0, t0) =>
    if pyStrip s0 ≠ [] then
      match pyIntL (pyStrip s0) with
      | none => .error (.valueError (pyStrip s0))
      | some a =>
        match (if pyStrip t0 = [] then some (n - 1) else pyIntL (pyStrip t0)) with
        | none => .error (.valueError (pyStrip t0))
        | some b =>
          if a ≥ n then .ok (some none)
          else if b < a then .ok none
          else .ok (some (some (a, b + 1)))
    else
      if pyStrip t0 = [] then .ok none
      else
        match pyIntL (pyStrip t0) with
        | none => .error (.valueError (pyStrip t0))
        | some s =>
          if s > n then .ok (some (some (0, n)))
          else .ok (some (some (n - s, n)))

/-- The `for brange in byteranges.split(',')` loop of `get_ranges`,
threading the `result` accumulator (kept reversed). -/
def rangeLoop (n : Int) : List (List Char) → List (Int × Int) →
    Except PyExn (Option (List (Int × Int)))
  | [], acc => .ok (some acc.reverse)
  | brange :: rest, acc =>
    match rangeStep n brange with
    | .error e => .error e
    | .ok none => .ok none
    | .ok (some none) => rangeLoop n rest acc
    | .ok (some (some p)) => rangeLoop n rest (p :: acc)

/-- `get_ranges(headervalue, content_length)` from `httputil.py`. -/
def getRangesL (headervalue : List Char) (n : Int) :
    Except PyExn (Option (List (Int × Int))) :=
  if headervalue = [] then .ok none
  else
    match splitOnce '=' headervalue with
    | none => .error (.valueError ('u' :: 'n' :: 'p' :: 'a' :: 'c' :: 'k' :: []))
    | some (_bytesunit, byteranges) => rangeLoop n (splitAll ',' byteranges) []

/-- The comma-separated specs `get_ranges` iterates over for a given
header value (empty when the unpacking of `split('=', 1)` would raise). -/
def rangeSegs (hv : List Char) : List (List Char) :=
  match splitOnce '=' hv with
  | some p => splitAll ',' p.2
  | none => []

/-- A syntactically backwards spec in the sense the code checks it: both
halves present and numeric, `start` below the content length (otherwise
the spec is dropped first), and `stop < start`. -/
def backwardsSpec (n : ℤ) (seg : List Char) : Prop :=
  ∃ u v a b, splitOnce '-' seg = some (u, v) ∧
    pyStrip u ≠ [] ∧ pyStrip v ≠ [] ∧
    pyIntL (pyStrip u) = some a ∧ pyIntL (pyStrip v) = some b ∧
    a < n ∧ b < a

/-! ### Python `float()` for quality values

CPython parses `q` values with `float()`.  We model the value exactly as a
decimal fraction `num / den` (`den` a positive power of ten); comparisons
are exact rational comparisons by cross-multiplication, which agree with
binary64 comparisons on all short decimal literals. -/

inductive PyFloat where
  | finite (num : ℤ) (den : ℕ)
  | inf
  | ninf
  | nan
deriving DecidableEq, Repr

/-- Python `==` on float values (`nan` is not equal to itself). -/
def pfEqB : PyFloat → PyFloat → Bool
  | .finite a b, .finite c d => a * (d : ℤ) = c * (b : ℤ)
  | .inf, .inf => true
  | .ninf, .ninf => true
  | _, _ => false

/-- Python `<` on float values (`nan` compares false against everything). -/
def pfLtB : PyFloat → PyFloat → Bool
  | .finite a b, .finite c d => a * (d : ℤ) < c * (b : ℤ)
  | .finite _ _, .inf => true
  | .ninf, .finite _ _ => true
  | .ninf, .inf => true
  | _, _ => false

/-- Value of a non-`nan` float in the linearly ordered
`WithBot (WithTop ℚ)` (`-inf` at the bottom, `inf` at the top), used to
transfer the comparison laws; `nan` is parked at an arbitrary slot and
excluded by hypothesis wherever `pfVal` appears. -/
def pfVal : PyFloat → WithBot (WithTop ℚ)
  | .finite n d => ((((n : ℚ) / (d : ℚ) : ℚ) : WithTop ℚ) : WithBot (WithTop ℚ))
  | .inf => ((⊤ : WithTop ℚ) : WithBot (WithTop ℚ))
  | .ninf => ⊥
  | .nan => ⊥

/-- Exponent suffix of a float literal (empty, or `e`/`E` sign digits);
the input is already lower-cased. -/
def parseExpPart : List Char → Option ℤ
  | [] => some 0
  | 'e' :: r =>
    match r with
    | '-' :: ds => (pyDigits ds).map (fun k => -(Int.ofNat k))
    | '+' :: ds => (pyDigits ds).map Int.ofNat
    | ds => (pyDigits ds).map Int.ofNat
  | _ => none

/-- Mantissa `m` scaled by `10 ^ e`, as a fraction over a power of ten. -/
def decScale (m : ℕ) (e : ℤ) : ℤ × ℕ :=
  if 0 ≤ e then ((m : ℤ) * 10 ^ e.toNat, 1) else ((m : ℤ), 10 ^ (-e).toNat)

/-- Unsigned decimal float literal: `digits [. digits] [exp]` or
`. digits [exp]`, at least one mantissa digit. -/
def parseUFloat (t : List Char) : Option (ℤ × ℕ) :=
  let ip := t.takeWhile Char.isDigit
  let r1 := t.dropWhile Char.isDigit
  match r1 with
  | '.' :: r2 =>
    let fp := r2.takeWhile Char.isDigit
    let r3 := r2.dropWhile Char.isDigit
    if ip = [] ∧ fp = [] then none
    else (parseExpPart r3).map (fun e => decScale (digitsVal (ip ++ fp)) (e - fp.length))
  | _ =>
    if ip = [] then none
    else (parseExpPart r1).map (fun e => decScale (digitsVal ip) e)

/-- Python `float(s)` for a string argument. -/
def pyFloat (l : List Char) : Option PyFloat :=
  let t := (pyStrip l).map Char.toLower
  let sgn : Bool × List Char :=
    match t with
    | '-' :: r => (true, r)
    | '+' :: r => (false, r)
    | _ => (false, t)
  let neg := sgn.1
  let t2 := sgn.2
  if t2 = "inf".data ∨ t2 = "infinity".data then some (if neg then .ninf else .inf)
  else if t2 = "nan".data then some .nan
  else (parseUFloat t2).map (fun p => .finite (if neg then -p.1 else p.1) p.2)

/-! ### More Python string and dict primitives -/

/-- Python `<` on strings: lexicographic by code point. -/
def strLtB : List Char → List Char → Bool
  | [], [] => false
  | [], _ :: _ => true
  | _ :: _, [] => false
  | a :: as, b :: bs => if a = b then strLtB as bs else decide (a < b)

def pyLower (l : List Char) : List Char := l.map Char.toLower

/-- Python `str.title()`: a letter following a non-letter is upper-cased,
a letter following a letter is lower-cased (ASCII view of "cased"). -/
def pyTitleAux : Bool → List Char → List Char
  | _, [] => []
  | prevCased, c :: rest =>
    if c.isAlpha then
      (if prevCased then c.toLower else c.toUpper) :: pyTitleAux true rest
    else c :: pyTitleAux false rest

def pyTitle (l : List Char) : List Char := pyTitleAux false l

/-- Scan for `s.replace`: each step consumes at least one character, so
fuel `s.length` suffices and the fuel-exhausted arm is unreachable. -/
def pyReplaceAux (p : Char) (ps rep : List Char) : ℕ → List Char → List Char
  | _, [] => []
  | 0, s => s
  | fuel + 1, c :: rest =>
    if (p :: ps).isPrefixOf (c :: rest) then
      rep ++ pyReplaceAux p ps rep fuel ((c :: rest).drop (p :: ps).length)
    else c :: pyReplaceAux p ps rep fuel rest

/-- Python `s.replace(pat, rep)`: non-overlapping, left to right.  (The
empty-pattern case never occurs in this module.) -/
def pyReplace (s pat rep : List Char) : List Char :=
  match pat with
  | [] => s
  | p :: ps => pyReplaceAux p ps rep s.length s

/-- Insertion-ordered dict (`d[k] = v` keeps the position of an existing
key, as CPython dicts do). -/
def assocSet {K V : Type} [DecidableEq K] (d : List (K × V)) (k : K) (v : V) :
    List (K × V) :=
  match d with
  | [] => [(k, v)]
  | (k0, v0) :: rest => if k0 = k then (k0, v) :: rest else (k0, v0) :: assocSet rest k v

def assocGet {K V : Type} [DecidableEq K] : List (K × V) → K → Option V
  | [], _ => none
  | (k0, v) :: rest, k => if k0 = k then some v else assocGet rest k

/-! ### `CaseInsensitiveDict` (`KeyTransformingDict` with `str(key).title()`)

The `KeyTransformingDict` subclass applies `transform_key` on every
`__setitem__` / `__getitem__` / `__contains__` / `__delitem__` / `get`
boundary; `CaseInsensitiveDict` fixes `transform_key = str(key).title()`. -/

def ciSet {V : Type} (d : List (List Char × V)) (k : List Char) (v : V) :
    List (List Char × V) :=
  assocSet d (pyTitle k) v

def ciGet {V : Type} (d : List (List Char × V)) (k : List Char) : Option V :=
  assocGet d (pyTitle k)

/-! ### `cgi.parse_header` (stdlib, used by `HeaderElement.parse`) -/

/-- Indices at which `c` occurs in `s`, ascending. -/
def charPositions (c : Char) : List Char → List ℕ
  | [] => []
  | a :: rest =>
    let ps := (charPositions c rest).map (· + 1)
    if a = c then 0 :: ps else ps

/-- Non-overlapping occurrences of the two-character string `\"`. -/
def countBQ : List Char → ℕ
  | '\\' :: '"' :: rest => countBQ rest + 1
  | _ :: rest => countBQ rest
  | [] => 0

/-- The parity test of `_parseparam`'s inner loop:
`(s.count('"', 0, end) - s.count('\\"', 0, end)) % 2`. -/
def oddQuoteParity (pre : List Char) : Bool :=
  (pre.count '"' - countBQ pre) % 2 = 1

/-- `_parseparam`'s scan for the parameter-terminating `;`: successive `;`
positions are tried while the prefix quote parity is odd; `find` returning
`-1` becomes `s.length`. -/
def pickEnd (s : List Char) : List ℕ → ℕ
  | [] => s.length
  | e :: rest => if 0 < e ∧ oddQuoteParity (s.take e) then pickEnd s rest else e

/-- `cgi._parseparam` generator, with fuel (each step consumes at least the
leading `;`, so `s.length + 1` steps always suffice). -/
def parseparamFuel : ℕ → List Char → List (List Char)
  | 0, _ => []
  | fuel + 1, s =>
    match s with
    | ';' :: s1 =>
      let e := pickEnd s1 (charPositions ';' s1)
      pyStrip (s1.take e) :: parseparamFuel fuel (s1.drop e)
    | _ => []

def parseparam (s : List Char) : List (List Char) := parseparamFuel (s.length + 1) s

/-- The parameter-dict loop of `cgi.parse_header`. -/
def paramPairs : List (List Char) → List (List Char × List Char) →
    List (List Char × List Char)
  | [], acc => acc
  | p :: rest, acc =>
    match p.findIdx? (· = '=') with
    | none => paramPairs rest acc
    | some i =>
      let name := pyLower (pyStrip (p.take i))
      let value0 := pyStrip (p.drop (i + 1))
      let value :=
        if 2 ≤ value0.length ∧ value0.head? = some '"' ∧ value0.getLast? = some '"' then
          pyReplace (pyReplace value0.dropLast.tail ['\\', '\\'] ['\\']) ['\\', '"'] ['"']
        else value0
      paramPairs rest (assocSet acc name value)

/-- `cgi.parse_header(line)`: `('token', {'key': 'val', ...})`.  The
generator over `';' + line` always yields at least one part, so the `[]`
case below is unreachable. -/
def parseHeaderL (line : List Char) : List Char × List (List Char × List Char) :=
  match parseparam (';' :: line) with
  | [] => ([], [])
  | key :: rest => (key, paramPairs rest [])

/-! ### `HeaderElement` and `AcceptElement` -/

mutual
/-- A parameter value: a plain string, or (for the `q` parameter set by
`AcceptElement.from_str`) a nested `HeaderElement`. -/
inductive PVal where
  | str : List Char → PVal
  | elem : HElem → PVal
/-- `HeaderElement`: a `value` plus insertion-ordered `params`. -/
inductive HElem where
  | mk : List Char → List (List Char × PVal) → HElem
end

def HElem.value : HElem → List Char
  | .mk v _ => v

def HElem.params : HElem → List (List Char × PVal)
  | .mk _ ps => ps

mutual
/-- `HeaderElement.__str__`: `value` then `;key=val` per param in order. -/
def strHE : HElem → List Char
  | .mk v ps => v ++ strParams ps
def strParams : List (List Char × PVal) → List Char
  | [] => []
  | (k, pv) :: rest => (';' :: k ++ '=' :: strPV pv) ++ strParams rest
def strPV : PVal → List Char
  | .str s => s
  | .elem he => strHE he
end

/-- `HeaderElement.from_str`. -/
def heFromStr (s : List Char) : HElem :=
  let p := parseHeaderL s
  .mk p.1 (p.2.map (fun kv => (kv.1, PVal.str kv.2)))

/-- Length of a match of `q_separator = re.compile(r'; *q *=')` at the
head of the string, if any. -/
def qSepMatchLen : List Char → Option ℕ
  | ';' :: r =>
    let sp1 := r.takeWhile (· = ' ')
    let r1 := r.dropWhile (· = ' ')
    match r1 with
    | 'q' :: r2 =>
      let sp2 := r2.takeWhile (· = ' ')
      let r3 := r2.dropWhile (· = ' ')
      match r3 with
      | '=' :: _ => some (1 + sp1.length + 1 + sp2.length + 1)
      | _ => none
    | _ => none
  | _ => none

/-- `q_separator.split(elementstr, 1)`: split on the leftmost match. -/
def qSepSplit : List Char → Option (List Char × List Char)
  | [] => none
  | c :: rest =>
    match qSepMatchLen (c :: rest) with
    | some m => some ([], (c :: rest).drop m)
    | none => (qSepSplit rest).map (fun p => (c :: p.1, p.2))

/-- `AcceptElement.from_str`: the part after the first `; q=` separator is
itself parsed as a `HeaderElement` and stored under params key `q`. -/
def acceptFromStr (s : List Char) : HElem :=
  match qSepSplit s with
  | none => heFromStr (pyStrip s)
  | some (l, r) =>
    let qv := heFromStr (pyStrip r)
    let base := parseHeaderL (pyStrip l)
    .mk base.1
      (assocSet (base.2.map (fun kv => (kv.1, PVal.str kv.2))) ['q'] (.elem qv))

/-- The raw quality string of an element: `params.get('q', '1')`,
unwrapping a nested `HeaderElement` to its bare value. -/
def qRawStr (e : HElem) : List Char :=
  match (assocGet e.params ['q']).getD (.str ['1']) with
  | .elem he => he.value
  | .str s => s

/-- `AcceptElement.qvalue`: convert the raw quality string with
`float()`; a conversion failure raises
`cherrypy.HTTPError(400, 'Malformed HTTP header: `...`')` carrying the
element's rendered text. -/
def qvalue (e : HElem) : Except PyExn PyFloat :=
  match pyFloat (qRawStr e) with
  | some f => .ok f
  | none => .error (.httpError 400 ("Malformed HTTP header: `".data ++ strHE e ++ ['`']))

/-! ### `header_elements` -/

/-- `RE_HEADER_SPLIT = re.compile(',(?=(?:[^"]*"[^"]*")*[^"]*$)')`: split
on each comma that is followed by an even number of `"` up to the end. -/
def splitHeaderAux : List Char → List Char → List (List Char)
  | [], acc => [acc.reverse]
  | c :: rest, acc =>
    if c = ',' ∧ rest.count '"' % 2 = 0 then acc.reverse :: splitHeaderAux rest []
    else splitHeaderAux rest (c :: acc)

def splitHeader (s : List Char) : List (List Char) := splitHeaderAux s []

/-- `','.join(segments)`, to state that the quote-aware split is a right
inverse of joining. -/
def joinComma : List (List Char) → List Char
  | [] => []
  | s :: rest =>
    match rest with
    | [] => s
    | _ :: _ => s ++ ',' :: joinComma rest

/-- The comparison key: `qvalue` where it parses.  An element whose
`qvalue` raises does so the first time the sort touches it, before its
value reaches any comparison, so the `nan` placeholder is never
observed. -/
def qvalKey (e : HElem) : PyFloat :=
  match qvalue e with
  | .ok f => f
  | .error _ => .nan

/-- `AcceptElement.__lt__`. -/
def acceptLtB (a b : HElem) : Bool :=
  if pfEqB (qvalKey a) (qvalKey b) then strLtB (strHE a) (strHE b)
  else pfLtB (qvalKey a) (qvalKey b)

/-- `HeaderElement.__lt__` (value-only comparison). -/
def heLtB (a b : HElem) : Bool := strLtB a.value b.value

/-- The run scan of CPython's `count_run`, ascending flavour: consume
elements while the next one is not `__lt__`-below the previous (CPython's
"ascending" run); return the run (starting at `prev`) and the remainder. -/
def runAsc {α : Type} (lt : α → α → Bool) : α → List α → List α × List α
  | prev, [] => ([prev], [])
  | prev, x :: xs =>
    if lt x prev then ([prev], x :: xs)
    else (prev :: (runAsc lt x xs).1, (runAsc lt x xs).2)

/-- The run scan of CPython's `count_run`, strictly descending flavour:
consume elements while each next one is `__lt__`-below the previous. -/
def runDesc {α : Type} (lt : α → α → Bool) : α → List α → List α × List α
  | prev, [] => ([prev], [])
  | prev, x :: xs =>
    if lt x prev then (prev :: (runDesc lt x xs).1, (runDesc lt x xs).2)
    else ([prev], x :: xs)

/-- CPython `count_run`: when `a[1] < a[0]` the initial run is the maximal
strictly descending front segment, reversed in place; otherwise it is the
maximal non-descending front segment. -/
def initialRun {α : Type} (lt : α → α → Bool) : List α → List α × List α
  | [] => ([], [])
  | [a] => ([a], [])
  | a0 :: a1 :: rest =>
    if lt a1 a0 then
      ((a0 :: (runDesc lt a1 rest).1).reverse, (runDesc lt a1 rest).2)
    else
      (a0 :: (runAsc lt a1 rest).1, (runAsc lt a1 rest).2)

/-- The binary search of CPython's `binarysort`: the insertion slot for
`pivot` in `srt` between indices `l` and `r`, by repeated halving (`p = l
+ (r - l)/2; if pivot < a[p] then r = p else l = p + 1` while `l < r`).
The gap `r - l` shrinks every step, so `srt.length + 1` fuel at the top
call is enough. -/
def binPosFuel {α : Type} (lt : α → α → Bool) (pivot : α) (srt : List α) :
    ℕ → ℕ → ℕ → ℕ
  | 0, l, _ => l
  | fuel + 1, l, r =>
    if l < r then
      if lt pivot (srt.getD (l + (r - l) / 2) pivot) then
        binPosFuel lt pivot srt fuel l (l + (r - l) / 2)
      else
        binPosFuel lt pivot srt fuel (l + (r - l) / 2 + 1) r
    else l

def binPos {α : Type} (lt : α → α → Bool) (pivot : α) (srt : List α) : ℕ :=
  binPosFuel lt pivot srt (srt.length + 1) 0 srt.length

/-- CPython `binarysort`: extend the sorted front segment by
binary-inserting each remaining element in order. -/
def binsortLoop {α : Type} (lt : α → α → Bool) : List α → List α → List α
  | srt, [] => srt
  | srt, x :: xs =>
    binsortLoop lt
      (srt.take (binPos lt x srt) ++ x :: srt.drop (binPos lt x srt)) xs

/-- CPython `list.sort` as it runs on every list of fewer than 64 elements
(there `minrun = n`, so the whole sort is one `count_run` — reversing a
strictly descending front segment — followed by `binarysort`): the only
regime header element lists realistically occupy, and on longer lists the
merging path computes the same result whenever the comparator is a strict
weak order. -/
def pySort {α : Type} (lt : α → α → Bool) (l : List α) : List α :=
  binsortLoop lt (initialRun lt l).1 (initialRun lt l).2

def firstQErrTail : List HElem → Option PyExn
  | [] => none
  | e :: rest =>
    match qvalue e with
    | .error err => some err
    | .ok _ => firstQErrTail rest

/-- The `HTTPError` CPython's sort raises when some element's `qvalue` is
malformed, if any: the sort's first comparison is `list[1] < list[0]`,
whose `__lt__` evaluates `self.qvalue` — that of `list[1]` — before
`other.qvalue`; once those two are known good, each later element is
first touched with its own `qvalue` evaluated first (as the left operand
of the run scan, or as the binary-insertion pivot), in index order. -/
def firstQErr : List HElem → Option PyExn
  | e0 :: e1 :: rest =>
    match qvalue e1 with
    | .error err => some err
    | .ok _ =>
      match qvalue e0 with
      | .error err => some err
      | .ok _ => firstQErrTail rest
  | _ => none

def isAcceptFamily (fieldname : List Char) : Bool :=
  "Accept".data.isPrefixOf fieldname ∨ fieldname = "TE".data

/-- `header_elements(fieldname, fieldvalue)`: split on quote-aware commas,
parse via `AcceptElement` for `Accept*`/`TE` fields else `HeaderElement`,
then `list(reversed(sorted(result)))`.  A sort of fewer than two elements
performs no comparisons and cannot raise. -/
def headerElements (fieldname fieldvalue : List Char) :
    Except PyExn (List HElem) :=
  if fieldvalue = [] then .ok []
  else if isAcceptFamily fieldname then
    if ((splitHeader fieldvalue).map acceptFromStr).length ≤ 1 then
      .ok ((splitHeader fieldvalue).map acceptFromStr)
    else
      match firstQErr ((splitHeader fieldvalue).map acceptFromStr) with
      | some err => .error err
      | none =>
        .ok ((pySort acceptLtB ((splitHeader fieldvalue).map acceptFromStr)).reverse)
  else
    .ok ((pySort heLtB ((splitHeader fieldvalue).map heFromStr)).reverse)

/-! ### `urllib.parse.unquote_plus` (stdlib, used by `_parse_qs`)

Only the `utf-8` codec is modelled (the callers in this module pass the
default `'utf-8'`).  Maximal runs of percent-decoded bytes are decoded
strictly; for UTF-8 this agrees with CPython's chunk-at-a-time decoding,
because a valid multi-byte sequence can never span a literal character. -/

/-- Strict UTF-8 decoding of a byte list. -/
def utf8Decode : List ℕ → Option (List Char)
  | [] => some []
  | b :: rest =>
    if b ≤ 127 then (utf8Decode rest).map (fun cs => Char.ofNat b :: cs)
    else if 194 ≤ b ∧ b ≤ 223 then
      match rest with
      | b2 :: r2 =>
        if 128 ≤ b2 ∧ b2 ≤ 191 then
          (utf8Decode r2).map (fun cs => Char.ofNat ((b - 192) * 64 + (b2 - 128)) :: cs)
        else none
      | [] => none
    else if 224 ≤ b ∧ b ≤ 239 then
      match rest with
      | b2 :: b3 :: r3 =>
        if (if b = 224 then 160 ≤ b2 ∧ b2 ≤ 191
            else if b = 237 then 128 ≤ b2 ∧ b2 ≤ 159
            else 128 ≤ b2 ∧ b2 ≤ 191) ∧ 128 ≤ b3 ∧ b3 ≤ 191 then
          (utf8Decode r3).map
            (fun cs => Char.ofNat ((b - 224) * 4096 + (b2 - 128) * 64 + (b3 - 128)) :: cs)
        else none
      | _ => none
    else if 240 ≤ b ∧ b ≤ 244 then
      match rest with
      | b2 :: b3 :: b4 :: r4 =>
        if (if b = 240 then 144 ≤ b2 ∧ b2 ≤ 191
            else if b = 244 then 128 ≤ b2 ∧ b2 ≤ 143
            else 128 ≤ b2 ∧ b2 ≤ 191) ∧ 128 ≤ b3 ∧ b3 ≤ 191 ∧ 128 ≤ b4 ∧ b4 ≤ 191 then
          (utf8Decode r4).map
            (fun cs => Char.ofNat
              ((b - 240) * 262144 + (b2 - 128) * 4096 + (b3 - 128) * 64 + (b4 - 128)) :: cs)
        else none
      | _ => none
    else none

def isHexDigitB (c : Char) : Bool :=
  c.isDigit ∨ ('a' ≤ c ∧ c ≤ 'f') ∨ ('A' ≤ c ∧ c ≤ 'F')

def hexVal (c : Char) : ℕ :=
  if c.isDigit then c.toNat - 48 else if 'a' ≤ c then c.toNat - 87 else c.toNat - 55

/-- Token stream of percent decoding: a valid `%hh` becomes a byte, an
invalid escape stays a literal `%`. -/
inductive PctTok where
  | ch (c : Char)
  | byte (b : ℕ)
deriving DecidableEq, Repr

def pctTokens : List Char → List PctTok
  | [] => []
  | '%' :: a :: b :: rest =>
    if isHexDigitB a ∧ isHexDigitB b then
      .byte (hexVal a * 16 + hexVal b) :: pctTokens rest
    else .ch '%' :: pctTokens (a :: b :: rest)
  | c :: rest => .ch c :: pctTokens rest

/-- Decode the token stream, `pending` holding the reversed byte run
collected so far; each maximal byte run is UTF-8 decoded strictly
(`errors='strict'`). -/
def decodeToksAux : List ℕ → List PctTok → Except PyExn (List Char)
  | pending, [] =>
    match utf8Decode pending.reverse with
    | some cs => .ok cs
    | none => .error (.unicodeDecodeError pending.reverse.length.repr.data)
  | pending, .byte b :: rest => decodeToksAux (b :: pending) rest
  | pending, .ch c :: rest =>
    match utf8Decode pending.reverse with
    | some cs => (decodeToksAux [] rest).map (fun cs2 => cs ++ c :: cs2)
    | none => .error (.unicodeDecodeError pending.reverse.length.repr.data)

/-- `unquote_plus(s, encoding='utf-8', errors='strict')`. -/
def pyUnquotePlus (s : List Char) : Except PyExn (List Char) :=
  decodeToksAux [] (pctTokens (s.map (fun c => if c = '+' then ' ' else c)))

/-! ### `_parse_qs` and `parse_query_string` -/

/-- A query-parameter value: a string, an image-map coordinate, or the
list a repeated key accumulates into. -/
inductive QVal where
  | str (s : List Char)
  | int (n : ℤ)
  | qlist (vs : List QVal)

/-- `d[name] = value` / promote-to-list / append, as in `_parse_qs`. -/
def addPair (d : List (List Char × QVal)) (name value : List Char) :
    List (List Char × QVal) :=
  match assocGet d name with
  | none => assocSet d name (.str value)
  | some (.qlist vs) => assocSet d name (.qlist (vs ++ [.str value]))
  | some v0 => assocSet d name (.qlist [v0, .str value])

/-- Percent-decode a name/value pair and store it. -/
def qsAddPair (d : List (List Char × QVal)) (nm vl : List Char) :
    Except PyExn (List (List Char × QVal)) :=
  match pyUnquotePlus nm with
  | .error e => .error e
  | .ok name =>
    match pyUnquotePlus vl with
    | .error e => .error e
    | .ok value => .ok (addPair d name value)

/-- The pair loop of `_parse_qs`. -/
def parseQsLoop (keepBlank strict : Bool) :
    List (List Char) → List (List Char × QVal) →
    Except PyExn (List (List Char × QVal))
  | [], d => .ok d
  | nv0 :: rest, d =>
    if nv0 = [] ∧ strict = false then parseQsLoop keepBlank strict rest d
    else
      match splitOnce '=' nv0 with
      | some (nm, vl) =>
        if vl ≠ [] ∨ keepBlank = true then
          match qsAddPair d nm vl with
          | .error e => .error e
          | .ok d2 => parseQsLoop keepBlank strict rest d2
        else parseQsLoop keepBlank strict rest d
      | none =>
        if strict = true then .error (.valueError nv0)
        else if keepBlank = true then
          match qsAddPair d nv0 [] with
          | .error e => .error e
          | .ok d2 => parseQsLoop keepBlank strict rest d2
        else parseQsLoop keepBlank strict rest d

/-- `pairs = [s2 for s1 in qs.split('&') for s2 in s1.split(';')]`. -/
def qsPairs (qs : List Char) : List (List Char) :=
  ((splitAll '&' qs).map (splitAll ';')).flatten

/-- `_parse_qs(qs, keep_blank_values, strict_parsing, encoding='utf-8')`. -/
def parseQs (qs : List Char) (keepBlank strict : Bool) :
    Except PyExn (List (List Char × QVal)) :=
  parseQsLoop keepBlank strict (qsPairs qs) []

/-- `image_map_pattern.match(query_string)` with the pattern
`[0-9]+,[0-9]+`: `re.match` anchors only at the start, so this tests for
digits-comma-digits as a prefix. -/
def imageMapMatch (qs : List Char) : Bool :=
  let d1 := qs.takeWhile Char.isDigit
  let r := qs.dropWhile Char.isDigit
  !d1.isEmpty &&
    match r with
    | ',' :: c :: _ => c.isDigit
    | _ => false

/-- `parse_query_string(query_string, keep_blank_values=True)` (with the
default `'utf-8'` encoding).  On an image-map match, `pm[0]` and `pm[1]`
exist because the match guarantees a comma. -/
def parseQueryString (qs : List Char) (keepBlank : Bool) :
    Except PyExn (List (List Char × QVal)) :=
  if imageMapMatch qs then
    let pm := splitAll ',' qs
    match pyIntL (pm.headD []) with
    | none => .error (.valueError (pm.headD []))
    | some x =>
      match pyIntL ((pm.drop 1).headD []) with
      | none => .error (.valueError ((pm.drop 1).headD []))
      | some y => .ok [(['x'], .int x), (['y'], .int y)]
  else parseQs qs keepBlank false

/-! ### `valid_status` and the status registry -/

/-- The argument of `valid_status`: an int, a string, or `None`. -/
inductive StatusArg where
  | int (n : ℤ)
  | str (s : List Char)
  | nil
deriving DecidableEq, Repr

/-- Python truthiness of a status argument (`if not status: status = 200`). -/
def statusTruthy : StatusArg → Bool
  | .int n => n ≠ 0
  | .str s => s ≠ []
  | .nil => false

/-- `str.partition(sep)`: text before the first separator. -/
def partBefore (sep : Char) (s : List Char) : List Char :=
  s.takeWhile (· ≠ sep)

/-- `str.partition(sep)`: text after the first separator (empty when the
separator is absent). -/
def partAfter (sep : Char) (s : List Char) : List Char :=
  (s.dropWhile (· ≠ sep)).drop 1

/-- Simplified `repr` of a Python string: surrounding single quotes,
without escaping (adequate for the arguments exercised here). -/
def pyReprStr (s : List Char) : List Char :=
  Char.ofNat 39 :: s ++ [Char.ofNat 39]

def pyReprInt (n : ℤ) : List Char :=
  if n < 0 then '-' :: natStr (-n).toNat else natStr n.toNat

/-- `BaseHTTPRequestHandler.responses` (stdlib): code -> (reason phrase,
description).  Transcribed from the Python 3 `http` module; only the set
of codes and the two overridden entries matter to the theorems below. -/
def baseResponses : List (ℤ × (List Char × List Char)) :=
  [(100, ("Continue".data, "Request received, please continue".data)),
   (101, ("Switching Protocols".data, "Switching to new protocol; obey Upgrade header".data)),
   (102, ("Processing".data, "".data)),
   (200, ("OK".data, "Request fulfilled, document follows".data)),
   (201, ("Created".data, "Document created, URL follows".data)),
   (202, ("Accepted".data, "Request accepted, processing continues off-line".data)),
   (203, ("Non-Authoritative Information".data, "Request fulfilled from cache".data)),
   (204, ("No Content".data, "Request fulfilled, nothing follows".data)),
   (205, ("Reset Content".data, "Clear input form for further input".data)),
   (206, ("Partial Content".data, "Partial content follows".data)),
   (207, ("Multi-Status".data, "".data)),
   (208, ("Already Reported".data, "".data)),
   (226, ("IM Used".data, "".data)),
   (300, ("Multiple Choices".data, "Object has several resources -- see URI list".data)),
   (301, ("Moved Permanently".data, "Object moved permanently -- see URI list".data)),
   (302, ("Found".data, "Object moved temporarily -- see URI list".data)),
   (303, ("See Other".data, "Object moved -- see Method and URL list".data)),
   (304, ("Not Modified".data, "Document has not changed since given time".data)),
   (305, ("Use Proxy".data, "You must use proxy specified in Location to access this resource".data)),
   (307, ("Temporary Redirect".data, "Object moved temporarily -- see URI list".data)),
   (308, ("Permanent Redirect".data, "Object moved permanently -- see URI list".data)),
   (400, ("Bad Request".data, "Bad request syntax or unsupported method".data)),
   (401, ("Unauthorized".data, "No permission -- see authorization schemes".data)),
   (402, ("Payment Required".data, "No payment -- see charging schemes".data)),
   (403, ("Forbidden".data, "Request forbidden -- authorization will not help".data)),
   (404, ("Not Found".data, "Nothing matches the given URI".data)),
   (405, ("Method Not Allowed".data, "Specified method is invalid for this resource".data)),
   (406, ("Not Acceptable".data, "URI not available in preferred format".data)),
   (407, ("Proxy Authentication Required".data, "You must authenticate with this proxy before proceeding".data)),
   (408, ("Request Timeout".data, "Request timed out; try again later".data)),
   (409, ("Conflict".data, "Request conflict".data)),
   (410, ("Gone".data, "URI no longer exists and has been permanently removed".data)),
   (411, ("Length Required".data, "Client must specify Content-Length".data)),
   (412, ("Precondition Failed".data, "Precondition in headers is false".data)),
   (413, ("Request Entity Too Large".data, "Entity is too large".data)),
   (414, ("Request-URI Too Long".data, "URI is too long".data)),
   (415, ("Unsupported Media Type".data, "Entity body in unsupported format".data)),
   (416, ("Requested Range Not Satisfiable".data, "Cannot satisfy request range".data)),
   (417, ("Expectation Failed".data, "Expect condition could not be satisfied".data)),
   (421, ("Misdirected Request".data, "Server is not able to produce a response".data)),
   (422, ("Unprocessable Entity".data, "".data)),
   (423, ("Locked".data, "".data)),
   (424, ("Failed Dependency".data, "".data)),
   (426, ("Upgrade Required".data, "".data)),
   (428, ("Precondition Required".data, "The origin server requires the request to be conditional".data)),
   (429, ("Too Many Requests".data, "The user has sent too many requests in a given amount of time".data)),
   (431, ("Request Header Fields Too Large".data, "The server is unwilling to process the request because its header fields are too large".data)),
   (451, ("Unavailable For Legal Reasons".data, "The server is denying access to the resource as a consequence of a legal demand".data)),
   (500, ("Internal Server Error".data, "Server got itself in trouble".data)),
   (501, ("Not Implemented".data, "Server does not support this operation".data)),
   (502, ("Bad Gateway".data, "Invalid responses from another server/proxy".data)),
   (503, ("Service Unavailable".data, "The server cannot process the request due to a high load".data)),
   (504, ("Gateway Timeout".data, "The gateway server did not receive a timely response".data)),
   (505, ("HTTP Version Not Supported".data, "Cannot fulfill request".data)),
   (506, ("Variant Also Negotiates".data, "".data)),
   (507, ("Insufficient Storage".data, "".data)),
   (508, ("Loop Detected".data, "".data)),
   (510, ("Not Extended".data, "".data)),
   (511, ("Network Authentication Required".data, "The client needs to authenticate to gain network access".data))]

/-- `response_codes`: the stdlib registry with the module's two overrides
(`#361`) for 500 and 503. -/
def responseCodes : List (ℤ × (List Char × List Char)) :=
  assocSet
    (assocSet baseResponses 500
      ("Internal Server Error".data,
       ("The server encountered an unexpected condition " ++
        "which prevented it from fulfilling the request.").data))
    503
    ("Service Unavailable".data,
     ("The server is currently unable to handle the " ++
      "request due to a temporary overloading or " ++
      "maintenance of the server.").data)

/-- `valid_status(status)`: `(code, reason, message)` or a raised
`ValueError` naming the bad input. -/
def validStatus (status : StatusArg) : Except PyExn (ℤ × List Char × List Char) :=
  let st := if statusTruthy status then status else .int 200
  let codeAndReason : Option ℤ × Option (List Char) :=
    match st with
    | .str l =>
      let r := pyStrip (partAfter ' ' l)
      (pyIntL (partBefore ' ' l), if r = [] then none else some r)
    | .int n => (some n, none)
    | .nil => (some 200, none)
  match codeAndReason.1 with
  | none =>
    let badRepr :=
      match st with
      | .str l => pyReprStr (partBefore ' ' l)
      | .int n => pyReprInt n
      | .nil => "None".data
    .error (.valueError
      ("Illegal response status from server (".data ++ badRepr ++ " is non-numeric).".data))
  | some code =>
    if code < 100 ∨ code > 599 then
      .error (.valueError
        ("Illegal response status from server (".data ++ pyReprInt code ++
         " is out of range).".data))
    else
      let dr := (assocGet responseCodes code).getD ([], [])
      .ok (code, codeAndReason.2.getD dr.1, dr.2)

def exceptIsOk {ε α : Type} : Except ε α → Bool
  | .ok _ => true
  | .error _ => false

/-- The code part of a status argument as the code parses it: the int
itself, or `int()` of the text before the first space. -/
def statusCodePart : StatusArg → Option ℤ
  | .int n => some n
  | .str s => pyIntL (partBefore ' ' s)
  | .nil => none

/-- The inputs on which `valid_status` raises: truthy, and with a
non-numeric code part or a code outside `[100, 599]`. -/
def statusBad (st : StatusArg) : Prop :=
  statusTruthy st = true ∧
    match statusCodePart st with
    | none => True
    | some c => c < 100 ∨ c > 599

/-! ## Supporting lemmas -/

theorem mem_pyStrip {c : Char} {l : List Char} (h : c ∈ pyStrip l) : c ∈ l := by
  unfold pyStrip at h
  rw [List.mem_reverse] at h
  have h2 : c ∈ (l.dropWhile isPySpace).reverse := (List.dropWhile_sublist _).mem h
  rw [List.mem_reverse] at h2
  exact (List.dropWhile_sublist _).mem h2

theorem not_space_of_digit {c : Char} (h : c.isDigit = true) : isPySpace c = false := by
  cases hc : isPySpace c with
  | false => rfl
  | true =>
    exfalso
    have hd : c = ' ' ∨ c = '\t' ∨ c = '\n' ∨ c = '\r' ∨ c = '\x0b' ∨ c = '\x0c' := by
      simpa [isPySpace] using hc
    rcases hd with rfl | rfl | rfl | rfl | rfl | rfl <;> exact absurd h (by decide)

theorem dropWhile_space_of_digits {l : List Char} (h : allDigits l = true) :
    l.dropWhile isPySpace = l := by
  cases l with
  | nil => rfl
  | cons c rest =>
    have hc : c.isDigit = true := by
      simp only [allDigits, List.all_cons, Bool.and_eq_true] at h
      exact h.1
    rw [List.dropWhile_cons, if_neg (by simp [not_space_of_digit hc])]

theorem allDigits_reverse {l : List Char} : allDigits l.reverse = allDigits l := by
  simp [allDigits, List.all_eq_true]

theorem pyStrip_of_digits {l : List Char} (h : allDigits l = true) : pyStrip l = l := by
  unfold pyStrip
  rw [dropWhile_space_of_digits h]
  rw [dropWhile_space_of_digits (by rw [allDigits_reverse]; exact h)]
  exact List.reverse_reverse l

theorem splitOnce_left {sep : Char} :
    ∀ {l a b : List Char}, splitOnce sep l = some (a, b) → sep ∉ a := by
  intro l
  induction l with
  | nil => intro a b h; simp [splitOnce] at h
  | cons c rest ih =>
    intro a b h
    rw [splitOnce] at h
    by_cases hc : c = sep
    · rw [if_pos hc] at h
      simp only [Option.some.injEq, Prod.mk.injEq] at h
      rw [← h.1]
      exact List.not_mem_nil sep
    · rw [if_neg hc] at h
      rw [Option.map_eq_some'] at h
      obtain ⟨p, hp, hf⟩ := h
      have hnp : sep ∉ p.1 := ih (a := p.1) (b := p.2) (by rw [hp])
      have ha : a = c :: p.1 := by
        have := congrArg Prod.fst hf
        simpa using this.symm
      rw [ha]
      intro hmem
      rcases List.mem_cons.mp hmem with h1 | h1
      · exact hc h1.symm
      · exact hnp h1

theorem splitOnce_append {sep : Char} {u : List Char} (hu : sep ∉ u) (v : List Char) :
    splitOnce sep (u ++ sep :: v) = some (u, v) := by
  induction u with
  | nil => simp [splitOnce]
  | cons c rest ih =>
    have hcc : ¬c = sep := fun h => hu (by rw [h]; exact List.mem_cons_self _ _)
    rw [List.cons_append, splitOnce, if_neg hcc,
        ih (fun h => hu (List.mem_cons_of_mem _ h))]
    rfl

theorem splitAll_of_not_mem {sep : Char} :
    ∀ {l : List Char}, sep ∉ l → splitAll sep l = [l] := by
  intro l
  induction l with
  | nil => intro _; rfl
  | cons c rest ih =>
    intro h
    have hcc : ¬c = sep := fun hc => h (by rw [hc]; exact List.mem_cons_self _ _)
    rw [splitAll, if_neg hcc, ih (fun hm => h (List.mem_cons_of_mem _ hm))]

theorem pyIntCore_nonneg {l : List Char} {k : ℤ} (h1 : '-' ∉ l)
    (h2 : pyIntCore l = some k) : 0 ≤ k := by
  cases l with
  | nil => simp [pyIntCore] at h2
  | cons c rest =>
    rw [pyIntCore] at h2
    have hc : ¬c = '-' := fun h => h1 (by rw [h]; exact List.mem_cons_self _ _)
    rw [if_neg hc] at h2
    by_cases hp : c = '+'
    · rw [if_pos hp, Option.map_eq_some'] at h2
      obtain ⟨m, _, hm⟩ := h2
      rw [← hm]
      exact Int.ofNat_nonneg m
    · rw [if_neg hp, Option.map_eq_some'] at h2
      obtain ⟨m, _, hm⟩ := h2
      rw [← hm]
      exact Int.ofNat_nonneg m


theorem pyIntL_nonneg {l : List Char} {k : ℤ} (h1 : '-' ∉ l)
    (h2 : pyIntL l = some k) : 0 ≤ k :=
  pyIntCore_nonneg (fun hm => h1 (mem_pyStrip hm)) h2

theorem charOfNat_digit {d : ℕ} (hd : d < 10) :
    (Char.ofNat (48 + d)).isDigit = true ∧ (Char.ofNat (48 + d)).toNat = 48 + d := by
  interval_cases d <;> exact ⟨by decide, by decide⟩

theorem natStr_digits (n : ℕ) : allDigits (natStr n) = true := by
  induction n using Nat.strong_induction_on with
  | _ n ih =>
    rw [natStr]
    split
    · rename_i h10
      simp only [allDigits, List.all_cons, List.all_nil, Bool.and_true]
      exact (charOfNat_digit h10).1
    · rename_i h10
      have hrec := ih (n / 10) (Nat.div_lt_self (by omega) (by omega))
      simp only [allDigits, List.all_append, List.all_cons, List.all_nil,
        Bool.and_true, Bool.and_eq_true] at hrec ⊢
      exact ⟨hrec, (charOfNat_digit (Nat.mod_lt n (by omega))).1⟩

theorem natStr_ne_nil (n : ℕ) : natStr n ≠ [] := by
  rw [natStr]
  split
  · simp
  · simp

theorem mem_natStr_digit {c : Char} {n : ℕ} (h : c ∈ natStr n) : c.isDigit = true := by
  have := natStr_digits n
  simp only [allDigits, List.all_eq_true] at this
  exact this c h

theorem not_mem_natStr {c : Char} (hc : c.isDigit = false) (n : ℕ) : c ∉ natStr n :=
  fun h => by rw [mem_natStr_digit h] at hc; cases hc

theorem digitsVal_append_single (l : List Char) (c : Char) :
    digitsVal (l ++ [c]) = 10 * digitsVal l + (c.toNat - 48) := by
  simp [digitsVal, List.foldl_append]

theorem digitsVal_natStr (n : ℕ) : digitsVal (natStr n) = n := by
  induction n using Nat.strong_induction_on with
  | _ n ih =>
    rw [natStr]
    split
    · rename_i h10
      simp only [digitsVal, List.foldl_cons, List.foldl_nil]
      rw [(charOfNat_digit h10).2]
      omega
    · rename_i h10
      rw [digitsVal_append_single, ih (n / 10) (Nat.div_lt_self (by omega) (by omega)),
        (charOfNat_digit (Nat.mod_lt n (by omega))).2]
      omega

theorem pyIntL_natStr (n : ℕ) : pyIntL (natStr n) = some (n : ℤ) := by
  rw [pyIntL, pyStrip_of_digits (natStr_digits n)]
  cases hl : natStr n with
  | nil => exact absurd hl (natStr_ne_nil n)
  | cons c rest =>
    have hc : c.isDigit = true :=
      mem_natStr_digit (by rw [hl]; exact List.mem_cons_self c rest)
    rw [pyIntCore,
      if_neg (fun h => by rw [h] at hc; exact absurd hc (by decide)),
      if_neg (fun h => by rw [h] at hc; exact absurd hc (by decide)),
      pyDigits, if_pos ⟨by simp, by rw [← hl]; exact natStr_digits n⟩]
    rw [Option.map_some', ← hl, digitsVal_natStr]
    rfl

theorem getRangesL_eq_loop {u : List Char} (hu : '=' ∉ u) (v : List Char) (n : ℤ) :
    getRangesL (u ++ '=' :: v) n = rangeLoop n (splitAll ',' v) [] := by
  have hne : u ++ '=' :: v ≠ [] := by cases u <;> simp
  rw [getRangesL, if_neg hne, splitOnce_append hu]

/-! ## Claims about `get_ranges` -/

theorem rangeStep_pair {n : ℤ} (hn : 0 ≤ n) {seg : List Char} {p : ℤ × ℤ}
    (h : rangeStep n seg = .ok (some (some p))) :
    0 ≤ p.1 ∧ 0 ≤ p.2 ∧ (p.2 = n ∨ p.1 < p.2) := by
  obtain ⟨p1, p2⟩ := p
  dsimp only
  rw [rangeStep] at h
  split at h
  · exact Except.noConfusion h
  · rename_i u v hsp
    split at h
    · split at h
      · exact Except.noConfusion h
      · rename_i a ha
        split at h
        · exact Except.noConfusion h
        · rename_i b hb
          split at h
          · simp at h
          · rename_i hge
            split at h
            · simp at h
            · rename_i hba
              simp only [Except.ok.injEq, Option.some.injEq, Prod.mk.injEq] at h
              obtain ⟨h1, h2⟩ := h
              subst h1
              subst h2
              have ha0 : 0 ≤ a :=
                pyIntL_nonneg (fun hm => splitOnce_left hsp (mem_pyStrip hm)) ha
              exact ⟨ha0, by omega, Or.inr (by omega)⟩
    · split at h
      · simp at h
      · split at h
        · exact Except.noConfusion h
        · rename_i s hs
          split at h
          · rename_i hgt
            simp only [Except.ok.injEq, Option.some.injEq, Prod.mk.injEq] at h
            obtain ⟨h1, h2⟩ := h
            subst h1
            subst h2
            exact ⟨le_refl 0, hn, Or.inl rfl⟩
          · rename_i hgt
            simp only [Except.ok.injEq, Option.some.injEq, Prod.mk.injEq] at h
            obtain ⟨h1, h2⟩ := h
            subst h1
            subst h2
            exact ⟨by omega, hn, Or.inl rfl⟩

theorem rangeLoop_none_of_mem {n : ℤ} :
    ∀ (segs : List (List Char)) (acc : List (ℤ × ℤ)) (r : Option (List (ℤ × ℤ))),
      rangeLoop n segs acc = .ok r →
      (∃ seg ∈ segs, rangeStep n seg = .ok none) → r = none := by
  intro segs
  induction segs with
  | nil =>
    intro acc r _ hex
    obtain ⟨seg, hmem, _⟩ := hex
    exact absurd hmem (List.not_mem_nil seg)
  | cons s0 rest ih =>
    intro acc r h hex
    obtain ⟨seg, hmem, hstep⟩ := hex
    rw [rangeLoop] at h
    rcases List.mem_cons.mp hmem with rfl | hmem2
    · rw [hstep] at h
      replace h : (Except.ok none : Except PyExn (Option (List (ℤ × ℤ)))) = .ok r := h
      exact (Except.ok.inj h).symm
    · cases hst : rangeStep n s0 with
      | error e =>
        rw [hst] at h
        exact Except.noConfusion h
      | ok o =>
        cases o with
        | none =>
          rw [hst] at h
          replace h : (Except.ok none : Except PyExn (Option (List (ℤ × ℤ)))) = .ok r := h
          exact (Except.ok.inj h).symm
        | some op =>
          cases op with
          | none =>
            rw [hst] at h
            replace h : rangeLoop n rest acc = .ok r := h
            exact ih acc r h ⟨seg, hmem2, hstep⟩
          | some q =>
            rw [hst] at h
            replace h : rangeLoop n rest (q :: acc) = .ok r := h
            exact ih (q :: acc) r h ⟨seg, hmem2, hstep⟩

theorem rangeLoop_pairs {n : ℤ} (hn : 0 ≤ n) :
    ∀ (segs : List (List Char)) (acc : List (ℤ × ℤ)) (l : List (ℤ × ℤ)),
      (∀ p ∈ acc, 0 ≤ p.1 ∧ 0 ≤ p.2 ∧ (p.2 = n ∨ p.1 < p.2)) →
      rangeLoop n segs acc = .ok (some l) →
      ∀ p ∈ l, 0 ≤ p.1 ∧ 0 ≤ p.2 ∧ (p.2 = n ∨ p.1 < p.2) := by
  intro segs
  induction segs with
  | nil =>
    intro acc l hacc h p hp
    replace h : (Except.ok (some acc.reverse) : Except PyExn _) = .ok (some l) := h
    have hrev : acc.reverse = l := by simpa using h
    rw [← hrev] at hp
    exact hacc p (List.mem_reverse.mp hp)
  | cons s0 rest ih =>
    intro acc l hacc h p hp
    rw [rangeLoop] at h
    cases hst : rangeStep n s0 with
    | error e =>
      rw [hst] at h
      exact Except.noConfusion h
    | ok o =>
      cases o with
      | none =>
        rw [hst] at h
        replace h : (Except.ok none : Except PyExn (Option (List (ℤ × ℤ)))) = .ok (some l) := h
        simp at h
      | some op =>
        cases op with
        | none =>
          rw [hst] at h
          replace h : rangeLoop n rest acc = .ok (some l) := h
          exact ih acc l hacc h p hp
        | some q =>
          rw [hst] at h
          replace h : rangeLoop n rest (q :: acc) = .ok (some l) := h
          refine ih (q :: acc) l ?_ h p hp
          intro p2 hp2
          rcases List.mem_cons.mp hp2 with rfl | hmem2
          · exact rangeStep_pair hn hst
          · exact hacc p2 hmem2

theorem rangeStep_both (a b : ℕ) (n : ℤ) (h1 : (a : ℤ) < n) (h2 : a ≤ b) :
    rangeStep n (natStr a ++ '-' :: natStr b) =
      .ok (some (some ((a : ℤ), (b : ℤ) + 1))) := by
  have hsp : splitOnce '-' (natStr a ++ '-' :: natStr b) = some (natStr a, natStr b) :=
    splitOnce_append (not_mem_natStr (by decide) a) (natStr b)
  have hge : ¬(a : ℤ) ≥ n := by omega
  have hlt : ¬(b : ℤ) < (a : ℤ) := by
    simp only [not_lt]
    exact_mod_cast h2
  rw [rangeStep, hsp]
  simp only [pyStrip_of_digits (natStr_digits a), pyStrip_of_digits (natStr_digits b),
    pyIntL_natStr]
  rw [if_pos (natStr_ne_nil a), if_neg (natStr_ne_nil b)]
  simp only [if_neg hge, if_neg hlt]

theorem rangeStep_drop (a b : ℕ) (n : ℤ) (h1 : n ≤ (a : ℤ)) :
    rangeStep n (natStr a ++ '-' :: natStr b) = .ok (some none) := by
  have hsp : splitOnce '-' (natStr a ++ '-' :: natStr b) = some (natStr a, natStr b) :=
    splitOnce_append (not_mem_natStr (by decide) a) (natStr b)
  rw [rangeStep, hsp]
  simp only [pyStrip_of_digits (natStr_digits a), pyStrip_of_digits (natStr_digits b),
    pyIntL_natStr]
  rw [if_pos (natStr_ne_nil a), if_neg (natStr_ne_nil b)]
  simp only [if_pos (show (a : ℤ) ≥ n from h1)]

theorem rangeStep_open (a : ℕ) (n : ℤ) (h1 : (a : ℤ) < n) :
    rangeStep n (natStr a ++ ['-']) = .ok (some (some ((a : ℤ), n))) := by
  have hsp : splitOnce '-' (natStr a ++ '-' :: ([] : List Char)) = some (natStr a, []) :=
    splitOnce_append (not_mem_natStr (by decide) a) []
  have hge : ¬(a : ℤ) ≥ n := by omega
  have hlt : ¬(n - 1 < (a : ℤ)) := by omega
  have hn1 : n - 1 + 1 = n := by ring
  rw [show (natStr a ++ ['-'] : List Char) = natStr a ++ '-' :: [] from rfl]
  rw [rangeStep, hsp]
  simp only [pyStrip_of_digits (natStr_digits a), pyIntL_natStr,
    show pyStrip ([] : List Char) = [] from rfl]
  rw [if_pos (natStr_ne_nil a)]
  simp only [if_true, if_neg hge, if_neg hlt, hn1]

theorem rangeStep_suffix_small (s : ℕ) (n : ℤ) (h1 : (s : ℤ) ≤ n) :
    rangeStep n ('-' :: natStr s) = .ok (some (some (n - (s : ℤ), n))) := by
  have hsp : splitOnce '-' ('-' :: natStr s) = some ([], natStr s) := by
    rw [splitOnce, if_pos rfl]
  have hgt : ¬(s : ℤ) > n := by omega
  rw [rangeStep, hsp]
  simp only [pyStrip_of_digits (natStr_digits s), pyIntL_natStr,
    show pyStrip ([] : List Char) = [] from rfl]
  simp [if_neg hgt, if_neg (natStr_ne_nil s)]

theorem rangeStep_suffix_large (s : ℕ) (n : ℤ) (h1 : n < (s : ℤ)) :
    rangeStep n ('-' :: natStr s) = .ok (some (some (0, n))) := by
  have hsp : splitOnce '-' ('-' :: natStr s) = some ([], natStr s) := by
    rw [splitOnce, if_pos rfl]
  rw [rangeStep, hsp]
  simp only [pyStrip_of_digits (natStr_digits s), pyIntL_natStr,
    show pyStrip ([] : List Char) = [] from rfl]
  simp [if_pos (show (s : ℤ) > n from h1), if_neg (natStr_ne_nil s)]

theorem rangeStep_backwards {n : ℤ} {seg : List Char} (hb : backwardsSpec n seg) :
    rangeStep n seg = .ok none := by
  obtain ⟨u, v, a, b, hsp, hu, hv, ha, hbv, han, hba⟩ := hb
  have hge : ¬a ≥ n := by omega
  rw [rangeStep, hsp]
  simp only [ha, hbv, if_pos hu, if_neg hv, if_neg hge, if_pos hba]

theorem comma_not_mem_both (a b : ℕ) : (',' : Char) ∉ natStr a ++ '-' :: natStr b := by
  intro h
  rcases List.mem_append.mp h with h1 | h1
  · exact not_mem_natStr (by decide) a h1
  · rcases List.mem_cons.mp h1 with h2 | h2
    · exact absurd h2 (by decide)
    · exact not_mem_natStr (by decide) b h2

theorem comma_not_mem_open (a : ℕ) : (',' : Char) ∉ natStr a ++ ['-'] := by
  intro h
  rcases List.mem_append.mp h with h1 | h1
  · exact not_mem_natStr (by decide) a h1
  · rcases List.mem_cons.mp h1 with h2 | h2
    · exact absurd h2 (by decide)
    · exact absurd h2 (List.not_mem_nil _)

theorem comma_not_mem_suffix (s : ℕ) : (',' : Char) ∉ '-' :: natStr s := by
  intro h
  rcases List.mem_cons.mp h with h2 | h2
  · exact absurd h2 (by decide)
  · exact not_mem_natStr (by decide) s h2

theorem getRanges_single_pair {v : List Char} (hv : (',' : Char) ∉ v) {n : ℤ}
    {p : ℤ × ℤ} (h : rangeStep n v = .ok (some (some p))) :
    getRangesL ("bytes=".data ++ v) n = .ok (some [p]) := by
  rw [show ("bytes=".data ++ v : List Char) = "bytes".data ++ '=' :: v from rfl,
    getRangesL_eq_loop (by decide), splitAll_of_not_mem hv]
  simp [rangeLoop, h]

theorem getRanges_single_skip {v : List Char} (hv : (',' : Char) ∉ v) {n : ℤ}
    (h : rangeStep n v = .ok (some none)) :
    getRangesL ("bytes=".data ++ v) n = .ok (some []) := by
  rw [show ("bytes=".data ++ v : List Char) = "bytes".data ++ '=' :: v from rfl,
    getRangesL_eq_loop (by decide), splitAll_of_not_mem hv]
  simp [rangeLoop, h]

/-- C2: `get_ranges` clause-by-clause: an absent/empty header value gives
`None`; a two-sided spec `start-stop` with `start < contentLength` and
`start ≤ stop` yields the half-open pair `(start, stop+1)`; a spec with
`start ≥ contentLength` is dropped (empty result, not fatal); `start-`
yields `(start, contentLength)`; `-stop` yields
`(contentLength - stop, contentLength)`, clamped to `(0, contentLength)`
when `stop > contentLength`; and the four concrete examples from the
specification evaluate as stated. -/
theorem getRanges_clauses :
    (∀ n : ℤ, getRangesL [] n = .ok none) ∧
    getRangesL "bytes=3-6".data 10 = .ok (some [(3, 7)]) ∧
    getRangesL "bytes=-5".data 10 = .ok (some [(5, 10)]) ∧
    getRangesL "bytes=0-".data 3 = .ok (some [(0, 3)]) ∧
    getRangesL "bytes=20-30".data 10 = .ok (some []) ∧
    (∀ (a b : ℕ) (n : ℤ), (a : ℤ) < n → a ≤ b →
      getRangesL ("bytes=".data ++ (natStr a ++ '-' :: natStr b)) n =
        .ok (some [((a : ℤ), (b : ℤ) + 1)])) ∧
    (∀ (a b : ℕ) (n : ℤ), n ≤ (a : ℤ) →
      getRangesL ("bytes=".data ++ (natStr a ++ '-' :: natStr b)) n = .ok (some [])) ∧
    (∀ (a : ℕ) (n : ℤ), (a : ℤ) < n →
      getRangesL ("bytes=".data ++ (natStr a ++ ['-'])) n = .ok (some [((a : ℤ), n)])) ∧
    (∀ (s : ℕ) (n : ℤ), (s : ℤ) ≤ n →
      getRangesL ("bytes=".data ++ '-' :: natStr s) n = .ok (some [(n - (s : ℤ), n)])) ∧
    (∀ (s : ℕ) (n : ℤ), n < (s : ℤ) →
      getRangesL ("bytes=".data ++ '-' :: natStr s) n = .ok (some [(0, n)])) := by
  refine ⟨fun n => rfl, by decide, by decide, by decide, by decide, ?_, ?_, ?_, ?_, ?_⟩
  · intro a b n h1 h2
    exact getRanges_single_pair (comma_not_mem_both a b) (rangeStep_both a b n h1 h2)
  · intro a b n h1
    exact getRanges_single_skip (comma_not_mem_both a b) (rangeStep_drop a b n h1)
  · intro a n h1
    exact getRanges_single_pair (comma_not_mem_open a) (rangeStep_open a n h1)
  · intro s n h1
    exact getRanges_single_pair (comma_not_mem_suffix s) (rangeStep_suffix_small s n h1)
  · intro s n h1
    exact getRanges_single_pair (comma_not_mem_suffix s) (rangeStep_suffix_large s n h1)

/-- C2 witness: the general clauses applied at concrete numerals. -/
theorem getRanges_clauses_witness :
    getRangesL ("bytes=".data ++ (natStr 3 ++ '-' :: natStr 6)) 10 =
      .ok (some [(((3 : ℕ) : ℤ), ((6 : ℕ) : ℤ) + 1)]) ∧
    getRangesL ("bytes=".data ++ (natStr 20 ++ '-' :: natStr 30)) 10 = .ok (some []) ∧
    getRangesL ("bytes=".data ++ (natStr 0 ++ ['-'])) 3 = .ok (some [(((0 : ℕ) : ℤ), 3)]) ∧
    getRangesL ("bytes=".data ++ '-' :: natStr 5) 10 = .ok (some [(10 - ((5 : ℕ) : ℤ), 10)]) ∧
    getRangesL ("bytes=".data ++ '-' :: natStr 15) 10 = .ok (some [(0, 10)]) :=
  ⟨getRanges_clauses.2.2.2.2.2.1 3 6 10 (by norm_num) (by norm_num),
   getRanges_clauses.2.2.2.2.2.2.1 20 30 10 (by norm_num),
   getRanges_clauses.2.2.2.2.2.2.2.1 0 3 (by norm_num),
   getRanges_clauses.2.2.2.2.2.2.2.2.1 5 10 (by norm_num),
   getRanges_clauses.2.2.2.2.2.2.2.2.2 15 10 (by norm_num)⟩

/-- C3 (amended): a comma-separated spec with both bounds present and
numeric, `start < contentLength`, and `stop < start` makes `get_ranges`
return `None` for the whole header, discarding ranges from other specs;
a backwards spec whose `start ≥ contentLength` is instead dropped by the
earlier check (see the counterexample).  The two concrete headers return
`None` as the claim states. -/
theorem backwards_spec_header_absent :
    (∀ (hv : List Char) (n : ℤ) (r : Option (List (ℤ × ℤ))),
       getRangesL hv n = .ok r →
       (∃ seg ∈ rangeSegs hv, backwardsSpec n seg) → r = none) ∧
    getRangesL "bytes=9-3".data 10 = .ok none ∧
    getRangesL "bytes=0-4,9-3".data 10 = .ok none := by
  refine ⟨?_, by decide, by decide⟩
  intro hv n r h hex
  obtain ⟨seg, hmem, hb⟩ := hex
  rw [getRangesL] at h
  split at h
  · exact (Except.ok.inj h).symm
  · rcases hsp : splitOnce '=' hv with _ | ⟨u, v⟩
    · rw [hsp] at h
      exact Except.noConfusion h
    · rw [hsp] at h
      replace h : rangeLoop n (splitAll ',' v) [] = .ok r := h
      apply rangeLoop_none_of_mem _ _ _ h
      refine ⟨seg, ?_, rangeStep_backwards hb⟩
      rw [rangeSegs, hsp] at hmem
      exact hmem

/-- C3 witness: the general clause applied to `bytes=0-4,9-3` against
content length 10 (the instantiated result is `none`). -/
theorem backwards_spec_header_absent_witness :
    getRangesL "bytes=0-4,9-3".data 10 = .ok none ∧
      (none : Option (List (ℤ × ℤ))) = none :=
  ⟨by decide,
   backwards_spec_header_absent.1 "bytes=0-4,9-3".data 10 none (by decide)
     ⟨"9-3".data, by decide, "9".data, "3".data, 9, 3, by decide, by decide, by decide,
       by decide, by decide, by decide, by decide⟩⟩

/-- C3 counterexample: `bytes=20-3` against content length 10 contains a
spec with both bounds present and `stop < start`, yet `get_ranges`
returns the empty list (the spec is dropped by the
`start >= content_length` check first), not `None` as the claim states. -/
theorem backwards_spec_counterexample :
    getRangesL "bytes=20-3".data 10 = .ok (some []) ∧
    rangeSegs "bytes=20-3".data = ["20-3".data] ∧
    splitOnce '-' "20-3".data = some ("20".data, "3".data) ∧
    pyIntL "20".data = some 20 ∧ pyIntL "3".data = some 3 ∧ (3 : ℤ) < 20 ∧
    (Option.some ([] : List (ℤ × ℤ)) ≠ none) :=
  ⟨by decide, by decide, by decide, by decide, by decide, by decide, by decide⟩

/-- C4 (amended): over any header value and non-negative content length,
every returned pair `(start, stop)` satisfies `0 ≤ start`, `0 ≤ stop`,
and either `stop = contentLength` (the suffix forms) or `start < stop`.
The claimed `0 ≤ start < stop ≤ contentLength` fails: `stop` may exceed
the content length, a zero-length suffix gives `start = stop`, and a
negative suffix string makes `start` exceed both (see counterexample). -/
theorem getRanges_pair_bounds :
    ∀ (hv : List Char) (n : ℤ), 0 ≤ n →
      ∀ l, getRangesL hv n = .ok (some l) →
        ∀ p ∈ l, 0 ≤ p.1 ∧ 0 ≤ p.2 ∧ (p.2 = n ∨ p.1 < p.2) := by
  intro hv n hn l h p hp
  rw [getRangesL] at h
  split at h
  · simp at h
  · rcases hsp : splitOnce '=' hv with _ | ⟨u, v⟩
    · rw [hsp] at h
      exact Except.noConfusion h
    · rw [hsp] at h
      replace h : rangeLoop n (splitAll ',' v) [] = .ok (some l) := h
      exact rangeLoop_pairs hn _ _ _
        (fun p2 hp2 => absurd hp2 (List.not_mem_nil p2)) h p hp

/-- C4 witness: the invariant applied to `bytes=3-6` at content length
10 and the returned pair `(3, 7)`. -/
theorem getRanges_pair_bounds_witness :
    0 ≤ ((3 : ℤ), (7 : ℤ)).1 ∧ 0 ≤ ((3 : ℤ), (7 : ℤ)).2 ∧
      (((3 : ℤ), (7 : ℤ)).2 = 10 ∨ ((3 : ℤ), (7 : ℤ)).1 < ((3 : ℤ), (7 : ℤ)).2) :=
  getRanges_pair_bounds "bytes=3-6".data 10 (by decide) [(3, 7)] (by decide)
    (3, 7) (by decide)

/-- C4 counterexample: `bytes=0-20,-0,--5` at content length 10 returns
pairs `(0,21)` (stop exceeds the content length), `(10,10)` (empty), and
`(15,10)` (start above stop and the content length), refuting
`0 ≤ start < stop ≤ contentLength`. -/
theorem getRanges_pair_bounds_counterexample :
    getRangesL "bytes=0-20,-0,--5".data 10 =
      .ok (some [(0, 21), (10, 10), (15, 10)]) ∧
    ¬((21 : ℤ) ≤ 10) ∧ ¬((10 : ℤ) < 10) ∧ ¬((15 : ℤ) < 10) :=
  ⟨by decide, by decide, by decide, by decide⟩

/-- C10 (amended): `get_ranges` never checks the range unit: for any unit
string `u` free of `'='`, the text before the first `'='` is discarded, so
`get_ranges(u + "=...")` equals `get_ranges("bytes=...")`; in particular
`u + "=3-6"` at content length 10 yields `[(3, 7)]`.  A unit string
containing `'='` shifts the split point instead (see counterexample). -/
theorem getRanges_unit_ignored :
    (∀ (u v : List Char) (n : ℤ), ('=' : Char) ∉ u →
       getRangesL (u ++ '=' :: v) n = getRangesL ("bytes=".data ++ v) n) ∧
    (∀ u : List Char, ('=' : Char) ∉ u →
       getRangesL (u ++ "=3-6".data) 10 = .ok (some [(3, 7)])) := by
  have key : ∀ (u v : List Char) (n : ℤ), ('=' : Char) ∉ u →
      getRangesL (u ++ '=' :: v) n = getRangesL ("bytes=".data ++ v) n := by
    intro u v n hu
    rw [getRangesL_eq_loop hu,
      show ("bytes=".data ++ v : List Char) = "bytes".data ++ '=' :: v from rfl,
      getRangesL_eq_loop (by decide)]
  refine ⟨key, fun u hu => ?_⟩
  rw [show (u ++ "=3-6".data : List Char) = u ++ '=' :: "3-6".data from rfl,
    key u "3-6".data 10 hu]
  decide

/-- C10 witness: the unit `apples` and the empty unit behave like
`bytes`. -/
theorem getRanges_unit_ignored_witness :
    getRangesL ("apples".data ++ '=' :: "3-6".data) 10 =
      getRangesL ("bytes=".data ++ "3-6".data) 10 ∧
    getRangesL (([] : List Char) ++ "=3-6".data) 10 = .ok (some [(3, 7)]) :=
  ⟨getRanges_unit_ignored.1 "apples".data "3-6".data 10 (by decide),
   getRanges_unit_ignored.2 [] (by decide)⟩

/-- C10 counterexample: the unit string `=` (which contains `'='`) makes
`get_ranges("==3-6", 10)` raise a `ValueError` from `int('=3')` instead
of returning `[(3, 7)]`, so the claim's quantification over every unit
string fails. -/
theorem getRanges_unit_counterexample :
    getRangesL ("=".data ++ "=3-6".data) 10 = .error (.valueError "=3".data) ∧
    (Except.error (PyExn.valueError "=3".data) ≠
      (.ok (some [(3, 7)]) : Except PyExn (Option (List (ℤ × ℤ))))) :=
  ⟨by decide, by decide⟩

/-! ## Claims about the quote-aware header splitter -/

theorem splitHeaderAux_ne_nil : ∀ (cs acc : List Char), splitHeaderAux cs acc ≠ [] := by
  intro cs
  induction cs with
  | nil => intro acc; simp [splitHeaderAux]
  | cons c rest ih =>
    intro acc
    rw [splitHeaderAux]
    split
    · simp
    · exact ih (c :: acc)

theorem joinComma_splitHeaderAux :
    ∀ (cs acc : List Char), joinComma (splitHeaderAux cs acc) = acc.reverse ++ cs := by
  intro cs
  induction cs with
  | nil => intro acc; simp [splitHeaderAux, joinComma]
  | cons c rest ih =>
    intro acc
    rw [splitHeaderAux]
    split
    · rename_i h
      rcases hsg : splitHeaderAux rest [] with _ | ⟨s1, ss⟩
      · exact absurd hsg (splitHeaderAux_ne_nil rest [])
      · have hj : joinComma (acc.reverse :: s1 :: ss) =
            acc.reverse ++ ',' :: joinComma (s1 :: ss) := rfl
        rw [hj, ← hsg, ih []]
        simp [h.1]
    · rw [ih (c :: acc)]
      simp

theorem splitHeaderAux_even :
    ∀ (cs acc : List Char), (cs.count '"' + acc.count '"') % 2 = 0 →
      ∀ seg ∈ splitHeaderAux cs acc, seg.count '"' % 2 = 0 := by
  intro cs
  induction cs with
  | nil =>
    intro acc h seg hseg
    rw [splitHeaderAux] at hseg
    rw [List.mem_singleton.mp hseg, List.count_reverse]
    simpa using h
  | cons c rest ih =>
    intro acc h seg hseg
    have hcc : (c :: rest).count '"' + acc.count '"' =
        rest.count '"' + (c :: acc).count '"' := by
      simp [List.count_cons]
      omega
    rw [splitHeaderAux] at hseg
    split at hseg
    · rename_i hcond
      have hcq : ¬c = '"' := by
        rw [hcond.1]
        decide
      rcases List.mem_cons.mp hseg with rfl | hseg2
      · rw [List.count_reverse]
        have h2 : (c :: rest).count '"' = rest.count '"' := by
          simp [List.count_cons, hcq]
        omega
      · refine ih [] ?_ seg hseg2
        simpa using hcond.2
    · refine ih (c :: acc) ?_ seg hseg
      omega

/-- C9 (amended): joining the quote-aware comma split back with `,`
returns the original value, hence re-splitting yields the same segments
and in particular the same count; and whenever the value contains an even
number of double quotes, no produced segment contains an unmatched (odd
count of) double quotes.  For a value with an odd quote total some
segment necessarily keeps an unmatched quote, so the evenness hypothesis
is required (see the counterexample). -/
theorem splitHeader_idempotent :
    (∀ v : List Char, joinComma (splitHeader v) = v) ∧
    (∀ v : List Char, splitHeader (joinComma (splitHeader v)) = splitHeader v) ∧
    (∀ v : List Char,
      (splitHeader (joinComma (splitHeader v))).length = (splitHeader v).length) ∧
    (∀ v : List Char, v.count '"' % 2 = 0 →
      ∀ seg ∈ splitHeader v, seg.count '"' % 2 = 0) := by
  have hjoin : ∀ v : List Char, joinComma (splitHeader v) = v := by
    intro v
    rw [splitHeader, joinComma_splitHeaderAux v []]
    simp
  refine ⟨hjoin, fun v => by rw [hjoin v], fun v => by rw [hjoin v], ?_⟩
  intro v hv seg hseg
  exact splitHeaderAux_even v [] (by simpa using hv) seg hseg

/-- C9 witness: the split of `a,"b,c",d` round-trips, and its quoted
middle segment has matched quotes. -/
theorem splitHeader_idempotent_witness :
    joinComma (splitHeader "a,\"b,c\",d".data) = "a,\"b,c\",d".data ∧
    ("\"b,c\"".data).count '"' % 2 = 0 :=
  ⟨splitHeader_idempotent.1 "a,\"b,c\",d".data,
   splitHeader_idempotent.2.2.2 "a,\"b,c\",d".data (by decide) "\"b,c\"".data (by decide)⟩

/-- C9 counterexample: a value consisting of a single double quote splits
into one segment that contains an unmatched quote, refuting the claim's
unconditional no-unmatched-quote part. -/
theorem splitHeader_unmatched_counterexample :
    splitHeader "\"".data = ["\"".data] ∧ ("\"".data).count '"' % 2 = 1 :=
  ⟨by decide, by decide⟩

/-! ## Claims about `AcceptElement.qvalue` -/

/-- C1: a quality value that does not convert to a number makes `qvalue`
raise a 400 `HTTPError` whose message carries the element's rendered
text (never substituting a default); an absent `q` parameter defaults to
quality 1.0; and `header_elements("Accept", "a;q=abc")` parses to an
element whose `qvalue` raises a 400 error referencing `a;q=abc`. -/
theorem qvalue_malformed_raises :
    (∀ e : HElem, pyFloat (qRawStr e) = none →
       qvalue e = .error (.httpError 400
         ("Malformed HTTP header: `".data ++ strHE e ++ ['`']))) ∧
    (∀ e : HElem, assocGet e.params ['q'] = none → qvalue e = .ok (.finite 1 1)) ∧
    headerElements "Accept".data "a;q=abc".data =
      .ok [.mk ['a'] [(['q'], .elem (.mk "abc".data []))]] ∧
    qvalue (.mk ['a'] [(['q'], .elem (.mk "abc".data []))]) =
      .error (.httpError 400 "Malformed HTTP header: `a;q=abc`".data) ∧
    List.IsInfix "a;q=abc".data "Malformed HTTP header: `a;q=abc`".data := by
  refine ⟨?_, ?_, by rfl, by rfl, ?_⟩
  · intro e h
    rw [qvalue, h]
  · intro e h
    rw [qvalue, qRawStr, h]
    rfl
  · exact ⟨"Malformed HTTP header: `".data, ['`'], by decide⟩

/-- C1 witness: the malformed-q clause applied to the element parsed from
`a;q=abc`, and the default clause applied to a q-less element. -/
theorem qvalue_malformed_raises_witness :
    qvalue (.mk ['a'] [(['q'], .elem (.mk "abc".data []))]) =
      .error (.httpError 400
        ("Malformed HTTP header: `".data ++
          strHE (.mk ['a'] [(['q'], .elem (.mk "abc".data []))]) ++ ['`'])) ∧
    qvalue (.mk ['a'] []) = .ok (.finite 1 1) :=
  ⟨qvalue_malformed_raises.1 (.mk ['a'] [(['q'], .elem (.mk "abc".data []))]) (by rfl),
   qvalue_malformed_raises.2.1 (.mk ['a'] []) (by rfl)⟩

/-! ## Claims about the case-insensitive header dict -/

theorem assocGet_assocSet {K V : Type} [DecidableEq K] :
    ∀ (d : List (K × V)) (k : K) (v : V), assocGet (assocSet d k v) k = some v := by
  intro d k v
  induction d with
  | nil => simp [assocSet, assocGet]
  | cons kv rest ih =>
    obtain ⟨k0, v0⟩ := kv
    rw [assocSet]
    by_cases h : k0 = k
    · rw [if_pos h, assocGet, if_pos h]
    · rw [if_neg h, assocGet, if_neg h]
      exact ih

theorem filter_key_nil {K V : Type} [DecidableEq K] :
    ∀ (d : List (K × V)) (k : K), k ∉ d.map Prod.fst →
      d.filter (fun p => p.1 = k) = [] := by
  intro d k
  induction d with
  | nil => intro _; rfl
  | cons kv rest ih =>
    obtain ⟨k0, v0⟩ := kv
    intro h
    have h0 : ¬k0 = k := by
      intro hk
      exact h (by simp [hk])
    have h1 : k ∉ rest.map Prod.fst := fun hm => h (by simp [hm])
    simp only [List.filter_cons, decide_eq_true_eq]
    rw [if_neg (by simpa using h0)]
    exact ih h1

theorem assocSet_filter_one {K V : Type} [DecidableEq K] :
    ∀ (d : List (K × V)) (k : K) (v : V), (d.map Prod.fst).Nodup →
      ((assocSet d k v).filter (fun p => p.1 = k)).length = 1 := by
  intro d k v
  induction d with
  | nil => simp [assocSet]
  | cons kv rest ih =>
    obtain ⟨k0, v0⟩ := kv
    intro hnd
    simp only [List.map_cons, List.nodup_cons] at hnd
    rw [assocSet]
    by_cases h : k0 = k
    · rw [if_pos h]
      simp only [List.filter_cons, decide_eq_true_eq]
      rw [if_pos (by simpa using h)]
      rw [filter_key_nil rest k (by rw [← h]; exact hnd.1)]
      rfl
    · rw [if_neg h]
      simp only [List.filter_cons, decide_eq_true_eq]
      rw [if_neg (by simpa using h)]
      exact ih hnd.2

theorem assocSet_keys_sub {K V : Type} [DecidableEq K] :
    ∀ (d : List (K × V)) (k : K) (v : V) (k2 : K),
      k2 ∈ (assocSet d k v).map Prod.fst → k2 ∈ d.map Prod.fst ∨ k2 = k := by
  intro d k v
  induction d with
  | nil =>
    intro k2 h
    simp [assocSet] at h
    exact Or.inr h
  | cons kv rest ih =>
    obtain ⟨k0, v0⟩ := kv
    intro k2 h
    rw [assocSet] at h
    by_cases hk : k0 = k
    · rw [if_pos hk] at h
      rw [List.map_cons, List.mem_cons] at h
      rcases h with rfl | h2
      · exact Or.inl (by simp)
      · exact Or.inl (by simp [h2])
    · rw [if_neg hk] at h
      rw [List.map_cons, List.mem_cons] at h
      rcases h with rfl | h2
      · exact Or.inl (by simp)
      · rcases ih k2 h2 with h3 | h3
        · exact Or.inl (by simp [h3])
        · exact Or.inr h3

theorem assocSet_nodup {K V : Type} [DecidableEq K] :
    ∀ (d : List (K × V)) (k : K) (v : V), (d.map Prod.fst).Nodup →
      ((assocSet d k v).map Prod.fst).Nodup := by
  intro d k v
  induction d with
  | nil =>
    intro _
    simp [assocSet]
  | cons kv rest ih =>
    obtain ⟨k0, v0⟩ := kv
    intro hnd
    simp only [List.map_cons, List.nodup_cons] at hnd
    rw [assocSet]
    by_cases h : k0 = k
    · rw [if_pos h]
      simp only [List.map_cons, List.nodup_cons]
      exact hnd
    · rw [if_neg h]
      simp only [List.map_cons, List.nodup_cons]
      refine ⟨?_, ih hnd.2⟩
      intro hmem
      rcases assocSet_keys_sub rest k v k0 hmem with h2 | h2
      · exact hnd.1 h2
      · exact h h2

/-- C6: after `m[k] = v`, reading any key whose title-case normalization
equals that of `k` returns `v`; writing under `X-Foo` and then `x-foo`
leaves exactly one `X-Foo` entry, holding the second value (for any
well-formed starting dict, i.e. one with distinct stored keys); and from
an empty map the two writes leave literally the single entry
`("X-Foo", v2)`. -/
theorem headerMap_title_collision :
    (∀ (V : Type) (d : List (List Char × V)) (k : List Char) (v : V) (k2 : List Char),
       pyTitle k2 = pyTitle k → ciGet (ciSet d k v) k2 = some v) ∧
    (∀ (V : Type) (d : List (List Char × V)) (v1 v2 : V),
       (d.map Prod.fst).Nodup →
       (((ciSet (ciSet d "X-Foo".data v1) "x-foo".data v2).filter
           (fun p => p.1 = "X-Foo".data)).length = 1 ∧
         ciGet (ciSet (ciSet d "X-Foo".data v1) "x-foo".data v2) "x-foo".data = some v2)) ∧
    (∀ v1 v2 : ℕ,
       ciSet (ciSet ([] : List (List Char × ℕ)) "X-Foo".data v1) "x-foo".data v2 =
         [("X-Foo".data, v2)]) := by
  have htitle : pyTitle "x-foo".data = "X-Foo".data := by decide
  have htitle2 : pyTitle "X-Foo".data = "X-Foo".data := by decide
  refine ⟨?_, ?_, ?_⟩
  · intro V d k v k2 h
    rw [ciGet, ciSet, h]
    exact assocGet_assocSet d (pyTitle k) v
  · intro V d v1 v2 hnd
    constructor
    · rw [ciSet, ciSet, htitle, htitle2]
      exact assocSet_filter_one (assocSet d "X-Foo".data v1) "X-Foo".data v2
        (assocSet_nodup d "X-Foo".data v1 hnd)
    · rw [ciGet, ciSet, htitle]
      exact assocGet_assocSet _ "X-Foo".data v2
  · intro v1 v2
    rw [ciSet, ciSet, htitle, htitle2]
    rfl

/-- C6 witness: setting `content-type` then reading `Content-Type`
returns the stored value, and the `X-Foo`/`x-foo` collision on the empty
map leaves one entry holding the second value. -/
theorem headerMap_title_collision_witness :
    ciGet (ciSet ([] : List (List Char × List Char)) "content-type".data
      "text/html".data) "Content-Type".data = some "text/html".data ∧
    ((((ciSet (ciSet ([] : List (List Char × ℕ)) "X-Foo".data 1) "x-foo".data 2).filter
        (fun p => p.1 = "X-Foo".data)).length = 1) ∧
      ciGet (ciSet (ciSet ([] : List (List Char × ℕ)) "X-Foo".data 1) "x-foo".data 2)
        "x-foo".data = some 2) :=
  ⟨headerMap_title_collision.1 (List Char) [] "content-type".data "text/html".data
    "Content-Type".data (by decide),
   headerMap_title_collision.2.1 ℕ [] 1 2 (by simp)⟩

/-! ## Claims about `valid_status` -/

/-- C8 (amended): for every truthy status argument, `valid_status` raises
a `ValueError` exactly when the code part is non-numeric or the parsed
code lies outside `[100, 599]`, and otherwise returns a
`(code, reason, description)` triple without raising; the error names the
bad input (shown for `"bogus"`), and `valid_status(700)` raises.  Falsy
arguments (`0`, `""`, `None`) are first replaced by 200 and therefore do
not raise, which the original if-and-only-if overlooks (counterexample). -/
theorem validStatus_error_iff :
    (∀ st : StatusArg, exceptIsOk (validStatus st) = false ↔ statusBad st) ∧
    (∀ n : ℤ, 100 ≤ n → n ≤ 599 → exceptIsOk (validStatus (.int n)) = true) ∧
    validStatus (.str "bogus".data) =
      .error (.valueError ("Illegal response status from server (".data ++
        pyReprStr "bogus".data ++ " is non-numeric).".data)) ∧
    List.IsInfix "bogus".data
      ("Illegal response status from server (".data ++
        pyReprStr "bogus".data ++ " is non-numeric).".data) ∧
    exceptIsOk (validStatus (.int 700)) = false := by
  have hiff : ∀ st : StatusArg, exceptIsOk (validStatus st) = false ↔ statusBad st := by
    intro st
    cases st with
    | nil =>
      constructor
      · intro h
        exact absurd h (by decide)
      · rintro ⟨h, _⟩
        exact absurd h (by decide)
    | int n =>
      by_cases hn : n = 0
      · subst hn
        constructor
        · intro h
          exact absurd h (by decide)
        · rintro ⟨h, _⟩
          exact absurd h (by decide)
      · have ht : statusTruthy (.int n) = true := by simp [statusTruthy, hn]
        rw [validStatus]
        simp only [ht, if_true, statusBad, statusCodePart]
        split
        · rename_i hcond
          simp [exceptIsOk, hcond]
        · rename_i hcond
          simp [exceptIsOk, hcond]
    | str s =>
      by_cases hs : s = []
      · subst hs
        constructor
        · intro h
          exact absurd h (by decide)
        · rintro ⟨h, _⟩
          exact absurd h (by decide)
      · have ht : statusTruthy (.str s) = true := by simp [statusTruthy, hs]
        rw [validStatus]
        simp only [ht, if_true, statusBad, statusCodePart]
        rcases hint : pyIntL (partBefore ' ' s) with _ | c
        · simp [hint, exceptIsOk]
        · simp only [hint]
          split
          · rename_i hcond
            simp [exceptIsOk, hcond]
          · rename_i hcond
            simp [exceptIsOk, hcond]
  refine ⟨hiff, ?_, by rfl, ?_, by rfl⟩
  · intro n h1 h2
    cases h : exceptIsOk (validStatus (.int n)) with
    | true => rfl
    | false =>
      have hb := (hiff (.int n)).mp h
      rw [statusBad] at hb
      simp only [statusCodePart] at hb
      exfalso
      rcases hb.2 with h3 | h3 <;> omega
  · exact ⟨"Illegal response status from server (".data ++ [Char.ofNat 39],
      [Char.ofNat 39] ++ " is non-numeric).".data, by decide⟩

/-- C8 witness: the iff applied to `"bogus"` (raises) and the in-range
clause applied to 202 (returns without raising). -/
theorem validStatus_error_iff_witness :
    exceptIsOk (validStatus (.str "bogus".data)) = false ∧
    exceptIsOk (validStatus (.int 202)) = true :=
  ⟨(validStatus_error_iff.1 (.str "bogus".data)).mpr ⟨by decide, trivial⟩,
   validStatus_error_iff.2.1 202 (by decide) (by decide)⟩

/-- C8 counterexample: `valid_status(0)` does not raise although 0 lies
outside `[100, 599]` — the falsy input is replaced by 200 first — so the
claimed if-and-only-if fails as stated. -/
theorem validStatus_falsy_counterexample :
    exceptIsOk (validStatus (.int 0)) = true ∧ ¬(100 ≤ (0 : ℤ) ∧ (0 : ℤ) ≤ 599) :=
  ⟨by decide, by decide⟩

/-! ## Claims about `parse_query_string` -/

theorem all_takeWhile (p : Char → Bool) : ∀ l : List Char, (l.takeWhile p).all p = true := by
  intro l
  induction l with
  | nil => rfl
  | cons a l2 ih =>
    cases h : p a with
    | true => simp [List.takeWhile_cons, h, ih]
    | false => simp [List.takeWhile_cons, h]

theorem takeWhile_app {p : Char → Bool} :
    ∀ {l : List Char}, l.all p = true → ∀ {c : Char}, p c = false → ∀ r : List Char,
      (l ++ c :: r).takeWhile p = l ∧ (l ++ c :: r).dropWhile p = c :: r := by
  intro l
  induction l with
  | nil =>
    intro _ c hc r
    constructor
    · simp [List.takeWhile_cons, hc]
    · simp [List.dropWhile_cons, hc]
  | cons a l2 ih =>
    intro hall c hc r
    rw [List.all_cons, Bool.and_eq_true] at hall
    have h2 := ih hall.2 hc r
    constructor
    · rw [List.cons_append, List.takeWhile_cons, if_pos hall.1, h2.1]
    · rw [List.cons_append, List.dropWhile_cons, if_pos hall.1, h2.2]

theorem splitAll_append {sep : Char} :
    ∀ {u : List Char}, sep ∉ u → ∀ v, splitAll sep (u ++ sep :: v) = u :: splitAll sep v := by
  intro u
  induction u with
  | nil => intro _ v; simp [splitAll]
  | cons c rest ih =>
    intro h v
    have hc : ¬c = sep := fun hcc => h (by rw [hcc]; exact List.mem_cons_self _ _)
    rw [List.cons_append, splitAll, if_neg hc,
      ih (fun hm => h (List.mem_cons_of_mem _ hm)) v]

/-- C7 (amended): `image_map_pattern.match` anchors only at the start of
the string (CPython `re.match`), so the image-map branch fires exactly
when the query string begins with digits-comma-digit; on a match, `x` and
`y` come from the text before the first and between the first and second
commas (so a fully numeric `a,b` gives `{x: a, y: b}`), and everything
else goes through ordinary key/value parsing.  `parse_query_string`
("12,34")` = `{x: 12, y: 34}`. -/
theorem parseQueryString_image_map :
    (∀ qs : List Char, imageMapMatch qs = true ↔
       ∃ d1 d2 rest : List Char, qs = d1 ++ ',' :: (d2 ++ rest) ∧
         d1 ≠ [] ∧ d1.all Char.isDigit = true ∧ d2 ≠ [] ∧ d2.all Char.isDigit = true) ∧
    (∀ qs : List Char, imageMapMatch qs = false →
       parseQueryString qs true = parseQs qs true false) ∧
    (∀ a b : ℕ, parseQueryString (natStr a ++ ',' :: natStr b) true =
       .ok [(['x'], .int (a : ℤ)), (['y'], .int (b : ℤ))]) ∧
    parseQueryString "12,34".data true = .ok [(['x'], .int 12), (['y'], .int 34)] := by
  refine ⟨?_, ?_, ?_, by rfl⟩
  · intro qs
    constructor
    · intro h
      rw [imageMapMatch, Bool.and_eq_true] at h
      obtain ⟨h1, h2⟩ := h
      split at h2
      · rename_i c t heq
        refine ⟨qs.takeWhile Char.isDigit, [c], t, ?_, ?_, all_takeWhile Char.isDigit qs,
          by simp, by simp [h2]⟩
        · have hqs : qs.takeWhile Char.isDigit ++ qs.dropWhile Char.isDigit = qs :=
            List.takeWhile_append_dropWhile Char.isDigit qs
          rw [heq] at hqs
          exact hqs.symm
        · intro hn
          rw [hn] at h1
          exact Bool.noConfusion h1
      · exact Bool.noConfusion h2
    · rintro ⟨d1, d2, rest, rfl, hd1, hall1, hd2, hall2⟩
      have happ := takeWhile_app hall1 (show Char.isDigit ',' = false from rfl) (d2 ++ rest)
      rw [imageMapMatch, happ.1, happ.2, Bool.and_eq_true]
      constructor
      · cases d1 with
        | nil => exact absurd rfl hd1
        | cons a l2 => rfl
      · cases d2 with
        | nil => exact absurd rfl hd2
        | cons c t =>
          rw [List.all_cons, Bool.and_eq_true] at hall2
          simpa using hall2.1
  · intro qs h
    rw [parseQueryString, if_neg (by simp [h])]
  · intro a b
    have hmatch : imageMapMatch (natStr a ++ ',' :: natStr b) = true := by
      have happ := takeWhile_app (natStr_digits a)
        (show Char.isDigit ',' = false from rfl) (natStr b)
      rw [imageMapMatch, happ.1, happ.2, Bool.and_eq_true]
      constructor
      · cases hd : natStr a with
        | nil => exact absurd hd (natStr_ne_nil a)
        | cons c t => rfl
      · cases hd : natStr b with
        | nil => exact absurd hd (natStr_ne_nil b)
        | cons c t =>
          have : c.isDigit = true :=
            mem_natStr_digit (by rw [hd]; exact List.mem_cons_self c t)
          simpa using this
    rw [parseQueryString, if_pos hmatch,
      splitAll_append (not_mem_natStr (by decide) a) (natStr b),
      splitAll_of_not_mem (not_mem_natStr (by decide) b)]
    simp only [List.headD, List.drop, pyIntL_natStr]

/-- C7 witness: the image-map clause applied at the numerals 12 and 34,
and the ordinary-parse clause applied to `a=1` (which does not match). -/
theorem parseQueryString_image_map_witness :
    parseQueryString (natStr 12 ++ ',' :: natStr 34) true =
      .ok [(['x'], .int ((12 : ℕ) : ℤ)), (['y'], .int ((34 : ℕ) : ℤ))] ∧
    parseQueryString "a=1".data true = parseQs "a=1".data true false :=
  ⟨parseQueryString_image_map.2.2.1 12 34,
   parseQueryString_image_map.2.1 "a=1".data (by decide)⟩

/-- C7 counterexample: `12,34,56` is not entirely of the digits-comma-
digits shape, yet `parse_query_string` still takes the image-map branch
(`re.match` is unanchored at the end) and returns `{x: 12, y: 34}`,
not the ordinary key/value parse `{'12,34,56': ''}` the claim requires. -/
theorem parseQueryString_counterexample :
    parseQueryString "12,34,56".data true = .ok [(['x'], .int 12), (['y'], .int 34)] ∧
    parseQs "12,34,56".data true false = .ok [("12,34,56".data, .str [])] ∧
    ((.ok [(['x'], QVal.int 12), (['y'], QVal.int 34)] :
        Except PyExn (List (List Char × QVal))) ≠
      .ok [("12,34,56".data, QVal.str [])]) := by
  refine ⟨by rfl, by rfl, ?_⟩
  intro h
  injection h with h1
  injection h1 with h2 h3
  injection h2 with hk hv
  exact absurd hk (by decide)

/-! ## Claims about Accept-element ordering -/

theorem pairwise_of_chain_mem {α : Type} {R : α → α → Prop} :
    ∀ l : List α, List.Chain' R l →
      (∀ x ∈ l, ∀ y ∈ l, ∀ z ∈ l, R x y → R y z → R x z) →
      l.Pairwise R := by
  intro l
  induction l with
  | nil => intro _ _; exact List.Pairwise.nil
  | cons a t ih =>
    intro hc htr
    cases t with
    | nil => exact List.pairwise_singleton R a
    | cons b t2 =>
      obtain ⟨hab, hc2⟩ := List.chain'_cons.mp hc
      have htr2 : ∀ x ∈ b :: t2, ∀ y ∈ b :: t2, ∀ z ∈ b :: t2,
          R x y → R y z → R x z := by
        intro x hx y hy z hz
        exact htr x (List.mem_cons_of_mem _ hx) y (List.mem_cons_of_mem _ hy)
          z (List.mem_cons_of_mem _ hz)
      have hp2 := ih hc2 htr2
      refine List.Pairwise.cons ?_ hp2
      intro y hy
      rcases List.mem_cons.mp hy with rfl | hy2
      · exact hab
      · have hby := (List.pairwise_cons.mp hp2).1 y hy2
        exact htr a (List.mem_cons_self _ _)
          b (List.mem_cons_of_mem _ (List.mem_cons_self _ _))
          y (List.mem_cons_of_mem _ (List.mem_cons_of_mem _ hy2)) hab hby

theorem chain_imp_mem {α : Type} {R S : α → α → Prop} :
    ∀ l : List α, List.Chain' R l → (∀ x ∈ l, ∀ y ∈ l, R x y → S x y) →
      List.Chain' S l := by
  intro l
  induction l with
  | nil => intro _ _; exact List.chain'_nil
  | cons a t ih =>
    intro hc himp
    cases t with
    | nil => exact List.chain'_singleton a
    | cons b t2 =>
      obtain ⟨hab, hc2⟩ := List.chain'_cons.mp hc
      refine List.chain'_cons.mpr ⟨?_, ?_⟩
      · exact himp a (List.mem_cons_self _ _)
          b (List.mem_cons_of_mem _ (List.mem_cons_self _ _)) hab
      · exact ih hc2
          (fun x hx y hy => himp x (List.mem_cons_of_mem _ hx) y (List.mem_cons_of_mem _ hy))

theorem runAsc_spec {α : Type} (lt : α → α → Bool) :
    ∀ (xs : List α) (prev : α),
      ∃ t : List α, (runAsc lt prev xs).1 = prev :: t ∧
        (prev :: t) ++ (runAsc lt prev xs).2 = prev :: xs ∧
        List.Chain' (fun a b => lt b a = false) (prev :: t) := by
  intro xs
  induction xs with
  | nil =>
    intro prev
    exact ⟨[], rfl, rfl, List.chain'_singleton prev⟩
  | cons x xs2 ih =>
    intro prev
    rw [runAsc]
    by_cases h : lt x prev = true
    · rw [if_pos h]
      exact ⟨[], rfl, rfl, List.chain'_singleton prev⟩
    · rw [if_neg h]
      have h' : lt x prev = false := by
        revert h; cases lt x prev <;> simp
      obtain ⟨t2, h1, h2, h3⟩ := ih x
      refine ⟨x :: t2, ?_, ?_, ?_⟩
      · show prev :: (runAsc lt x xs2).1 = prev :: x :: t2
        rw [h1]
      · show prev :: ((x :: t2) ++ (runAsc lt x xs2).2) = prev :: x :: xs2
        rw [h2]
      · exact List.chain'_cons.mpr ⟨h', h3⟩

theorem runDesc_spec {α : Type} (lt : α → α → Bool) :
    ∀ (xs : List α) (prev : α),
      ∃ t : List α, (runDesc lt prev xs).1 = prev :: t ∧
        (prev :: t) ++ (runDesc lt prev xs).2 = prev :: xs ∧
        List.Chain' (fun a b => lt b a = true) (prev :: t) := by
  intro xs
  induction xs with
  | nil =>
    intro prev
    exact ⟨[], rfl, rfl, List.chain'_singleton prev⟩
  | cons x xs2 ih =>
    intro prev
    rw [runDesc]
    by_cases h : lt x prev = true
    · rw [if_pos h]
      obtain ⟨t2, h1, h2, h3⟩ := ih x
      refine ⟨x :: t2, ?_, ?_, ?_⟩
      · show prev :: (runDesc lt x xs2).1 = prev :: x :: t2
        rw [h1]
      · show prev :: ((x :: t2) ++ (runDesc lt x xs2).2) = prev :: x :: xs2
        rw [h2]
      · exact List.chain'_cons.mpr ⟨h, h3⟩
    · rw [if_neg h]
      exact ⟨[], rfl, rfl, List.chain'_singleton prev⟩

theorem initialRun_perm {α : Type} (lt : α → α → Bool) :
    ∀ l : List α, ((initialRun lt l).1 ++ (initialRun lt l).2).Perm l := by
  intro l
  rcases l with _ | ⟨a0, _ | ⟨a1, rest⟩⟩
  · exact List.Perm.refl _
  · exact List.Perm.refl _
  · rw [initialRun]
    by_cases h : lt a1 a0 = true
    · rw [if_pos h]
      obtain ⟨t, h1, h2, _⟩ := runDesc_spec lt rest a1
      show ((a0 :: (runDesc lt a1 rest).1).reverse ++ (runDesc lt a1 rest).2).Perm _
      refine List.Perm.trans (List.Perm.append_right _ (List.reverse_perm _)) ?_
      rw [h1]
      have he : (a0 :: a1 :: t) ++ (runDesc lt a1 rest).2 = a0 :: a1 :: rest := by
        show a0 :: ((a1 :: t) ++ (runDesc lt a1 rest).2) = a0 :: a1 :: rest
        rw [h2]
      rw [he]
    · rw [if_neg h]
      obtain ⟨t, h1, h2, _⟩ := runAsc_spec lt rest a1
      show ((a0 :: (runAsc lt a1 rest).1) ++ (runAsc lt a1 rest).2).Perm _
      rw [h1]
      have he : (a0 :: a1 :: t) ++ (runAsc lt a1 rest).2 = a0 :: a1 :: rest := by
        show a0 :: ((a1 :: t) ++ (runAsc lt a1 rest).2) = a0 :: a1 :: rest
        rw [h2]
      rw [he]

theorem initialRun_sorted {α : Type} (lt : α → α → Bool) (l : List α)
    (hasym : ∀ x ∈ l, ∀ y ∈ l, lt x y = true → lt y x = false)
    (hnegtr : ∀ x ∈ l, ∀ y ∈ l, ∀ z ∈ l,
      lt y x = false → lt z y = false → lt z x = false) :
    (initialRun lt l).1.Pairwise (fun a b => lt b a = false) := by
  rcases l with _ | ⟨a0, _ | ⟨a1, rest⟩⟩
  · exact List.Pairwise.nil
  · exact List.pairwise_singleton _ a0
  · rw [initialRun]
    by_cases h : lt a1 a0 = true
    · rw [if_pos h]
      obtain ⟨t, h1, h2, h3⟩ := runDesc_spec lt rest a1
      show ((a0 :: (runDesc lt a1 rest).1).reverse).Pairwise _
      rw [h1]
      have hsub : ∀ e ∈ a0 :: a1 :: t, e ∈ a0 :: a1 :: rest := by
        intro e he
        rcases List.mem_cons.mp he with rfl | he2
        · exact List.mem_cons_self _ _
        · have hm : e ∈ (a1 :: t) ++ (runDesc lt a1 rest).2 :=
            List.mem_append.mpr (Or.inl he2)
          rw [h2] at hm
          exact List.mem_cons_of_mem _ hm
      have hchain : List.Chain' (fun a b => lt b a = true) (a0 :: a1 :: t) :=
        List.chain'_cons.mpr ⟨h, h3⟩
      have hchainrev : List.Chain' (fun a b => lt a b = true) (a0 :: a1 :: t).reverse := by
        rw [List.chain'_reverse]
        exact hchain
      have hchainle : List.Chain' (fun a b => lt b a = false) (a0 :: a1 :: t).reverse := by
        refine chain_imp_mem _ hchainrev ?_
        intro x hx y hy hxy
        exact hasym x (hsub x (List.mem_reverse.mp hx)) y (hsub y (List.mem_reverse.mp hy)) hxy
      refine pairwise_of_chain_mem _ hchainle ?_
      intro x hx y hy z hz h1' h2'
      exact hnegtr x (hsub x (List.mem_reverse.mp hx)) y (hsub y (List.mem_reverse.mp hy))
        z (hsub z (List.mem_reverse.mp hz)) h1' h2'
    · rw [if_neg h]
      obtain ⟨t, h1, h2, h3⟩ := runAsc_spec lt rest a1
      show (a0 :: (runAsc lt a1 rest).1).Pairwise _
      rw [h1]
      have hsub : ∀ e ∈ a0 :: a1 :: t, e ∈ a0 :: a1 :: rest := by
        intro e he
        rcases List.mem_cons.mp he with rfl | he2
        · exact List.mem_cons_self _ _
        · have hm : e ∈ (a1 :: t) ++ (runAsc lt a1 rest).2 :=
            List.mem_append.mpr (Or.inl he2)
          rw [h2] at hm
          exact List.mem_cons_of_mem _ hm
      have h' : lt a1 a0 = false := by
        revert h; cases lt a1 a0 <;> simp
      have hchain : List.Chain' (fun a b => lt b a = false) (a0 :: a1 :: t) :=
        List.chain'_cons.mpr ⟨h', h3⟩
      refine pairwise_of_chain_mem _ hchain ?_
      intro x hx y hy z hz h1' h2'
      exact hnegtr x (hsub x hx) y (hsub y hy) z (hsub z hz) h1' h2'

theorem binPosFuel_spec {α : Type} (lt : α → α → Bool) (pivot : α) (srt : List α)
    (hmono : ∀ i j : ℕ, i < srt.length → j < srt.length → i ≤ j →
      lt pivot (srt.getD i pivot) = true → lt pivot (srt.getD j pivot) = true) :
    ∀ fuel l r : ℕ, l ≤ r → r ≤ srt.length → r - l < fuel →
      (∀ i : ℕ, i < l → lt pivot (srt.getD i pivot) = false) →
      (∀ i : ℕ, r ≤ i → i < srt.length → lt pivot (srt.getD i pivot) = true) →
      (∀ i : ℕ, i < binPosFuel lt pivot srt fuel l r →
          lt pivot (srt.getD i pivot) = false) ∧
      (∀ i : ℕ, binPosFuel lt pivot srt fuel l r ≤ i → i < srt.length →
          lt pivot (srt.getD i pivot) = true) ∧
      binPosFuel lt pivot srt fuel l r ≤ srt.length := by
  intro fuel
  induction fuel with
  | zero =>
    intro l r hlr hrlen hfuel _ _
    exact absurd hfuel (Nat.not_lt_zero _)
  | succ fuel ih =>
    intro l r hlr hrlen hfuel hlow hhigh
    rw [binPosFuel]
    by_cases hcmp : l < r
    · rw [if_pos hcmp]
      by_cases hp : lt pivot (srt.getD (l + (r - l) / 2) pivot) = true
      · rw [if_pos hp]
        refine ih l (l + (r - l) / 2) (by omega) (by omega) (by omega) hlow ?_
        intro i hi hilen
        exact hmono (l + (r - l) / 2) i (by omega) hilen hi hp
      · rw [if_neg hp]
        have hp' : lt pivot (srt.getD (l + (r - l) / 2) pivot) = false := by
          revert hp; cases lt pivot (srt.getD (l + (r - l) / 2) pivot) <;> simp
        refine ih (l + (r - l) / 2 + 1) r (by omega) hrlen (by omega) ?_ hhigh
        intro i hi
        by_cases hil : i < l
        · exact hlow i hil
        · cases hq : lt pivot (srt.getD i pivot) with
          | false => rfl
          | true =>
            have hcontra := hmono i (l + (r - l) / 2) (by omega) (by omega) (by omega) hq
            exact Bool.noConfusion (hp'.symm.trans hcontra)
    · rw [if_neg hcmp]
      have hle : l = r := Nat.le_antisymm hlr (Nat.le_of_not_lt hcmp)
      refine ⟨hlow, ?_, ?_⟩
      · intro i hi hilen
        exact hhigh i (hle ▸ hi) hilen
      · omega

theorem binPos_bounds {α : Type} (lt : α → α → Bool) (pivot : α) (srt : List α)
    (hmono : ∀ i j : ℕ, i < srt.length → j < srt.length → i ≤ j →
      lt pivot (srt.getD i pivot) = true → lt pivot (srt.getD j pivot) = true) :
    (∀ i : ℕ, i < binPos lt pivot srt → lt pivot (srt.getD i pivot) = false) ∧
    (∀ i : ℕ, binPos lt pivot srt ≤ i → i < srt.length →
      lt pivot (srt.getD i pivot) = true) ∧
    binPos lt pivot srt ≤ srt.length := by
  rw [binPos]
  exact binPosFuel_spec lt pivot srt hmono (srt.length + 1) 0 srt.length
    (Nat.zero_le _) (Nat.le_refl _) (by omega)
    (fun i hi => absurd hi (Nat.not_lt_zero _))
    (fun i hi hilen => absurd hilen (Nat.not_lt.mpr hi))

theorem insert_pairwise {α : Type} {R : α → α → Prop} {l : List α} {x : α} {pos : ℕ}
    (hp : l.Pairwise R)
    (h1 : ∀ e ∈ l.take pos, R e x) (h2 : ∀ e ∈ l.drop pos, R x e) :
    (l.take pos ++ x :: l.drop pos).Pairwise R := by
  rw [List.pairwise_append]
  have hcross := (List.pairwise_append.mp
    (show (l.take pos ++ l.drop pos).Pairwise R by
      rw [List.take_append_drop]; exact hp)).2.2
  refine ⟨List.Pairwise.sublist (List.take_sublist pos l) hp, ?_, ?_⟩
  · exact List.Pairwise.cons h2 (List.Pairwise.sublist (List.drop_sublist pos l) hp)
  · intro a ha b hb
    rcases List.mem_cons.mp hb with rfl | hb2
    · exact h1 a ha
    · exact hcross a ha b hb2

theorem binsortLoop_perm {α : Type} (lt : α → α → Bool) :
    ∀ (rest srt : List α), (binsortLoop lt srt rest).Perm (srt ++ rest) := by
  intro rest
  induction rest with
  | nil =>
    intro srt
    rw [binsortLoop]
    simp
  | cons x xs ih =>
    intro srt
    rw [binsortLoop]
    refine (ih _).trans ?_
    have h1 : ((srt.take (binPos lt x srt) ++ x :: srt.drop (binPos lt x srt)) ++ xs).Perm
        ((x :: srt) ++ xs) := by
      refine List.Perm.append_right xs ?_
      refine List.Perm.trans List.perm_middle ?_
      rw [List.take_append_drop]
    exact h1.trans (by rw [List.cons_append]; exact List.perm_middle.symm)

theorem binsortLoop_sorted {α : Type} (lt : α → α → Bool) (S : List α)
    (hasym : ∀ x ∈ S, ∀ y ∈ S, lt x y = true → lt y x = false)
    (hlttr : ∀ x ∈ S, ∀ a ∈ S, ∀ b ∈ S,
      lt x a = true → lt b a = false → lt x b = true) :
    ∀ (rest srt : List α), (∀ e ∈ srt, e ∈ S) → (∀ e ∈ rest, e ∈ S) →
      srt.Pairwise (fun a b => lt b a = false) →
      (binsortLoop lt srt rest).Pairwise (fun a b => lt b a = false) := by
  intro rest
  induction rest with
  | nil =>
    intro srt _ _ hp
    rw [binsortLoop]
    exact hp
  | cons x xs ih =>
    intro srt hsrtS hrestS hp
    rw [binsortLoop]
    have hxS : x ∈ S := hrestS x (List.mem_cons_self _ _)
    have hmono : ∀ i j : ℕ, i < srt.length → j < srt.length → i ≤ j →
        lt x (srt.getD i x) = true → lt x (srt.getD j x) = true := by
      intro i j hi hj hij hlt
      rcases Nat.lt_or_ge i j with hij2 | hij2
      · have hji : lt (srt.getD j x) (srt.getD i x) = false := by
          rw [List.getD_eq_getElem srt x hi, List.getD_eq_getElem srt x hj]
          exact List.pairwise_iff_getElem.mp hp i j hi hj hij2
        have hmi : srt.getD i x ∈ S := by
          refine hsrtS _ ?_
          rw [List.getD_eq_getElem srt x hi]
          exact List.getElem_mem hi
        have hmj : srt.getD j x ∈ S := by
          refine hsrtS _ ?_
          rw [List.getD_eq_getElem srt x hj]
          exact List.getElem_mem hj
        exact hlttr x hxS (srt.getD i x) hmi (srt.getD j x) hmj hlt hji
      · have hij3 : i = j := Nat.le_antisymm hij hij2
        rw [← hij3]
        exact hlt
    obtain ⟨hb1, hb2, hb3⟩ := binPos_bounds lt x srt hmono
    have ht1 : ∀ e ∈ srt.take (binPos lt x srt), lt x e = false := by
      intro e he
      obtain ⟨i, hi, hie⟩ := List.mem_iff_getElem.mp he
      have hlt2 : i < min (binPos lt x srt) srt.length := by
        simpa [List.length_take] using hi
      have hie2 : srt.getD i x = e := by
        rw [List.getD_eq_getElem srt x (lt_of_lt_of_le hlt2 (min_le_right _ _))]
        exact (List.getElem_take srt).symm.trans hie
      rw [← hie2]
      exact hb1 i (lt_of_lt_of_le hlt2 (min_le_left _ _))
    have ht2 : ∀ e ∈ srt.drop (binPos lt x srt), lt x e = true := by
      intro e he
      obtain ⟨i, hi, hie⟩ := List.mem_iff_getElem.mp he
      have hlen : binPos lt x srt + i < srt.length := by
        have hi2 := hi
        simp [List.length_drop] at hi2
        omega
      have hie2 : srt.getD (binPos lt x srt + i) x = e := by
        rw [List.getD_eq_getElem srt x hlen]
        exact (List.getElem_drop srt).symm.trans hie
      rw [← hie2]
      exact hb2 _ (Nat.le_add_right _ _) hlen
    have hins : (srt.take (binPos lt x srt) ++ x :: srt.drop (binPos lt x srt)).Pairwise
        (fun a b => lt b a = false) := by
      refine insert_pairwise hp ht1 ?_
      intro e he
      exact hasym x hxS e (hsrtS e (List.mem_of_mem_drop he)) (ht2 e he)
    refine ih _ ?_ (fun e he => hrestS e (List.mem_cons_of_mem _ he)) hins
    intro e he
    rcases List.mem_append.mp he with hm | hm
    · exact hsrtS e (List.mem_of_mem_take hm)
    · rcases List.mem_cons.mp hm with rfl | hm2
      · exact hxS
      · exact hsrtS e (List.mem_of_mem_drop hm2)

theorem pySort_perm {α : Type} (lt : α → α → Bool) (l : List α) :
    (pySort lt l).Perm l := by
  rw [pySort]
  exact (binsortLoop_perm lt (initialRun lt l).2 (initialRun lt l).1).trans
    (initialRun_perm lt l)

theorem pySort_sorted {α : Type} (lt : α → α → Bool) (l : List α)
    (hasym : ∀ x ∈ l, ∀ y ∈ l, lt x y = true → lt y x = false)
    (hnegtr : ∀ x ∈ l, ∀ y ∈ l, ∀ z ∈ l,
      lt y x = false → lt z y = false → lt z x = false)
    (hlttr : ∀ x ∈ l, ∀ a ∈ l, ∀ b ∈ l,
      lt x a = true → lt b a = false → lt x b = true) :
    (pySort lt l).Pairwise (fun a b => lt b a = false) := by
  rw [pySort]
  refine binsortLoop_sorted lt l hasym hlttr (initialRun lt l).2 (initialRun lt l).1
    ?_ ?_ (initialRun_sorted lt l hasym hnegtr)
  · intro e he
    exact (initialRun_perm lt l).mem_iff.mp (List.mem_append.mpr (Or.inl he))
  · intro e he
    exact (initialRun_perm lt l).mem_iff.mp (List.mem_append.mpr (Or.inr he))

theorem strLtB_trans : ∀ (a b c : List Char),
    strLtB a b = true → strLtB b c = true → strLtB a c = true := by
  intro a
  induction a with
  | nil =>
    intro b c hab hbc
    cases b with
    | nil => exact Bool.noConfusion hab
    | cons b0 bs =>
      cases c with
      | nil => exact Bool.noConfusion hbc
      | cons c0 cs => rfl
  | cons a0 as ih =>
    intro b c hab hbc
    cases b with
    | nil => exact Bool.noConfusion hab
    | cons b0 bs =>
      cases c with
      | nil => exact Bool.noConfusion hbc
      | cons c0 cs =>
        rw [strLtB] at hab hbc ⊢
        by_cases h1 : a0 = b0
        · rw [if_pos h1] at hab
          by_cases h2 : b0 = c0
          · rw [if_pos h2] at hbc
            rw [if_pos (h1.trans h2)]
            exact ih bs cs hab hbc
          · rw [if_neg h2] at hbc
            have hlt : b0 < c0 := of_decide_eq_true hbc
            rw [if_neg (by rw [h1]; exact ne_of_lt hlt), h1]
            exact hbc
        · rw [if_neg h1] at hab
          have hlt1 : a0 < b0 := of_decide_eq_true hab
          by_cases h2 : b0 = c0
          · rw [if_pos h2] at hbc
            rw [if_neg (by rw [← h2]; exact ne_of_lt hlt1), ← h2]
            exact hab
          · rw [if_neg h2] at hbc
            have hlt2 : b0 < c0 := of_decide_eq_true hbc
            rw [if_neg (ne_of_lt (lt_trans hlt1 hlt2))]
            exact decide_eq_true (lt_trans hlt1 hlt2)

theorem strLtB_asymm : ∀ (a b : List Char), strLtB a b = true → strLtB b a = false := by
  intro a
  induction a with
  | nil =>
    intro b hab
    cases b with
    | nil => exact Bool.noConfusion hab
    | cons b0 bs => rfl
  | cons a0 as ih =>
    intro b hab
    cases b with
    | nil => exact Bool.noConfusion hab
    | cons b0 bs =>
      rw [strLtB] at hab ⊢
      by_cases h1 : a0 = b0
      · rw [if_pos h1] at hab
        rw [if_pos h1.symm]
        exact ih bs hab
      · rw [if_neg h1] at hab
        have hlt : a0 < b0 := of_decide_eq_true hab
        rw [if_neg (fun hh => h1 hh.symm)]
        exact decide_eq_false (not_lt_of_gt hlt)

theorem strLtB_trichotomy : ∀ (a b : List Char),
    strLtB a b = true ∨ a = b ∨ strLtB b a = true := by
  intro a
  induction a with
  | nil =>
    intro b
    cases b with
    | nil => exact Or.inr (Or.inl rfl)
    | cons b0 bs => exact Or.inl rfl
  | cons a0 as ih =>
    intro b
    cases b with
    | nil => exact Or.inr (Or.inr rfl)
    | cons b0 bs =>
      by_cases h1 : a0 = b0
      · rcases ih bs with h | h | h
        · exact Or.inl (by rw [strLtB, if_pos h1]; exact h)
        · exact Or.inr (Or.inl (by rw [h1, h]))
        · exact Or.inr (Or.inr (by rw [strLtB, if_pos h1.symm]; exact h))
      · rcases lt_trichotomy a0 b0 with h | h | h
        · exact Or.inl (by rw [strLtB, if_neg h1]; exact decide_eq_true h)
        · exact absurd h h1
        · exact Or.inr (Or.inr (by
            rw [strLtB, if_neg (fun hh => h1 hh.symm)]
            exact decide_eq_true h))

theorem pfEqB_finite (nx : ℤ) (dx : ℕ) (ny : ℤ) (dy : ℕ) (hdx : 0 < dx) (hdy : 0 < dy) :
    (pfEqB (.finite nx dx) (.finite ny dy) = true) ↔
      (nx : ℚ) / (dx : ℚ) = (ny : ℚ) / (dy : ℚ) := by
  show decide (nx * (dy : ℤ) = ny * (dx : ℤ)) = true ↔ _
  rw [decide_eq_true_iff]
  rw [div_eq_div_iff (by exact_mod_cast hdx.ne') (by exact_mod_cast hdy.ne')]
  constructor
  · intro h
    exact_mod_cast h
  · intro h
    exact_mod_cast h

theorem pfLtB_finite (nx : ℤ) (dx : ℕ) (ny : ℤ) (dy : ℕ) (hdx : 0 < dx) (hdy : 0 < dy) :
    (pfLtB (.finite nx dx) (.finite ny dy) = true) ↔
      (nx : ℚ) / (dx : ℚ) < (ny : ℚ) / (dy : ℚ) := by
  show decide (nx * (dy : ℤ) < ny * (dx : ℤ)) = true ↔ _
  rw [decide_eq_true_iff]
  rw [div_lt_div_iff₀ (by exact_mod_cast hdx) (by exact_mod_cast hdy)]
  constructor
  · intro h
    exact_mod_cast h
  · intro h
    exact_mod_cast h

theorem parseUFloat_den_pos {t : List Char} {p : ℤ × ℕ}
    (h : parseUFloat t = some p) : 0 < p.2 := by
  have hds : ∀ (m : ℕ) (e : ℤ), 0 < (decScale m e).2 := by
    intro m e
    rw [decScale]
    split
    · exact Nat.one_pos
    · exact pow_pos (by norm_num) _
  simp only [parseUFloat] at h
  split at h
  · split at h
    · exact Option.noConfusion h
    · obtain ⟨e, _, hpe⟩ := Option.map_eq_some'.mp h
      rw [← hpe]
      exact hds _ _
  · split at h
    · exact Option.noConfusion h
    · obtain ⟨e, _, hpe⟩ := Option.map_eq_some'.mp h
      rw [← hpe]
      exact hds _ _

theorem pyFloat_den_pos {l : List Char} {n : ℤ} {d : ℕ}
    (h : pyFloat l = some (.finite n d)) : 0 < d := by
  simp only [pyFloat] at h
  split at h
  · have h2 := Option.some.inj h
    split at h2
    · exact PyFloat.noConfusion h2
    · exact PyFloat.noConfusion h2
  · split at h
    · exact PyFloat.noConfusion (Option.some.inj h)
    · obtain ⟨q, hq, hqe⟩ := Option.map_eq_some'.mp h
      injection hqe with h1 h2
      rw [← h2]
      exact parseUFloat_den_pos hq

theorem qvalue_den_pos {e : HElem} {n : ℤ} {d : ℕ}
    (h : qvalue e = .ok (.finite n d)) : 0 < d := by
  rw [qvalue] at h
  split at h
  · rename_i f hf
    injection h with h2
    rw [h2] at hf
    exact pyFloat_den_pos hf
  · exact Except.noConfusion h

theorem pfLtB_val {x y : PyFloat} (hx : x ≠ .nan) (hy : y ≠ .nan)
    (hdx : ∀ m : ℤ, ∀ e : ℕ, x = .finite m e → 0 < e)
    (hdy : ∀ m : ℤ, ∀ e : ℕ, y = .finite m e → 0 < e) :
    pfLtB x y = true ↔ pfVal x < pfVal y := by
  cases x with
  | nan => exact absurd rfl hx
  | finite nx dx =>
    cases y with
    | nan => exact absurd rfl hy
    | finite ny dy =>
      rw [pfVal, pfVal, pfLtB_finite nx dx ny dy (hdx nx dx rfl) (hdy ny dy rfl)]
      constructor
      · intro h
        exact_mod_cast h
      · intro h
        exact_mod_cast h
    | inf =>
      simp only [pfVal]
      constructor
      · intro _
        exact WithBot.coe_lt_coe.mpr (WithTop.coe_lt_top _)
      · intro _
        rfl
    | ninf =>
      simp only [pfVal]
      constructor
      · intro h
        exact Bool.noConfusion h
      · intro h
        exact absurd h not_lt_bot
  | inf =>
    cases y with
    | nan => exact absurd rfl hy
    | finite ny dy =>
      simp only [pfVal]
      constructor
      · intro h
        exact Bool.noConfusion h
      · intro h
        exact absurd (WithBot.coe_lt_coe.mp h) not_top_lt
    | inf =>
      constructor
      · intro h
        exact Bool.noConfusion h
      · intro h
        exact absurd h (lt_irrefl _)
    | ninf =>
      simp only [pfVal]
      constructor
      · intro h
        exact Bool.noConfusion h
      · intro h
        exact absurd h not_lt_bot
  | ninf =>
    cases y with
    | nan => exact absurd rfl hy
    | finite ny dy =>
      simp only [pfVal]
      constructor
      · intro _
        exact WithBot.bot_lt_coe _
      · intro _
        rfl
    | inf =>
      simp only [pfVal]
      constructor
      · intro _
        exact WithBot.bot_lt_coe _
      · intro _
        rfl
    | ninf =>
      constructor
      · intro h
        exact Bool.noConfusion h
      · intro h
        exact absurd h (lt_irrefl _)

theorem pfEqB_val {x y : PyFloat} (hx : x ≠ .nan) (hy : y ≠ .nan)
    (hdx : ∀ m : ℤ, ∀ e : ℕ, x = .finite m e → 0 < e)
    (hdy : ∀ m : ℤ, ∀ e : ℕ, y = .finite m e → 0 < e) :
    pfEqB x y = true ↔ pfVal x = pfVal y := by
  cases x with
  | nan => exact absurd rfl hx
  | finite nx dx =>
    cases y with
    | nan => exact absurd rfl hy
    | finite ny dy =>
      rw [pfVal, pfVal, pfEqB_finite nx dx ny dy (hdx nx dx rfl) (hdy ny dy rfl)]
      constructor
      · intro h
        exact_mod_cast h
      · intro h
        exact_mod_cast h
    | inf =>
      simp only [pfVal]
      constructor
      · intro h
        exact Bool.noConfusion h
      · intro h
        exact absurd (WithBot.coe_inj.mp h) WithTop.coe_ne_top
    | ninf =>
      simp only [pfVal]
      constructor
      · intro h
        exact Bool.noConfusion h
      · intro h
        exact absurd h WithBot.coe_ne_bot
  | inf =>
    cases y with
    | nan => exact absurd rfl hy
    | finite ny dy =>
      simp only [pfVal]
      constructor
      · intro h
        exact Bool.noConfusion h
      · intro h
        exact absurd (WithBot.coe_inj.mp h).symm WithTop.coe_ne_top
    | inf =>
      constructor
      · intro _
        rfl
      · intro _
        rfl
    | ninf =>
      simp only [pfVal]
      constructor
      · intro h
        exact Bool.noConfusion h
      · intro h
        exact absurd h WithBot.coe_ne_bot
  | ninf =>
    cases y with
    | nan => exact absurd rfl hy
    | finite ny dy =>
      simp only [pfVal]
      constructor
      · intro h
        exact Bool.noConfusion h
      · intro h
        exact absurd h.symm WithBot.coe_ne_bot
    | inf =>
      simp only [pfVal]
      constructor
      · intro h
        exact Bool.noConfusion h
      · intro h
        exact absurd h.symm WithBot.coe_ne_bot
    | ninf =>
      constructor
      · intro _
        rfl
      · intro _
        rfl

theorem acceptLtB_val {x y : HElem}
    (hx : qvalKey x ≠ .nan) (hy : qvalKey y ≠ .nan)
    (hdx : ∀ m : ℤ, ∀ e : ℕ, qvalKey x = .finite m e → 0 < e)
    (hdy : ∀ m : ℤ, ∀ e : ℕ, qvalKey y = .finite m e → 0 < e) :
    acceptLtB x y = true ↔
      ((pfVal (qvalKey x) = pfVal (qvalKey y) ∧ strLtB (strHE x) (strHE y) = true) ∨
        pfVal (qvalKey x) < pfVal (qvalKey y)) := by
  rw [acceptLtB]
  by_cases he : pfEqB (qvalKey x) (qvalKey y) = true
  · rw [if_pos he]
    have heq := (pfEqB_val hx hy hdx hdy).mp he
    constructor
    · intro h
      exact Or.inl ⟨heq, h⟩
    · rintro (⟨_, h⟩ | hlt)
      · exact h
      · rw [heq] at hlt
        exact absurd hlt (lt_irrefl _)
  · rw [if_neg he]
    have hne : pfVal (qvalKey x) ≠ pfVal (qvalKey y) :=
      fun h => he ((pfEqB_val hx hy hdx hdy).mpr h)
    rw [pfLtB_val hx hy hdx hdy]
    constructor
    · exact Or.inr
    · rintro (⟨h, _⟩ | h)
      · exact absurd h hne
      · exact h

theorem acceptLtB_asymm {x y : HElem}
    (hx : qvalKey x ≠ .nan) (hy : qvalKey y ≠ .nan)
    (hdx : ∀ m : ℤ, ∀ e : ℕ, qvalKey x = .finite m e → 0 < e)
    (hdy : ∀ m : ℤ, ∀ e : ℕ, qvalKey y = .finite m e → 0 < e)
    (h : acceptLtB x y = true) : acceptLtB y x = false := by
  cases hb : acceptLtB y x with
  | false => rfl
  | true =>
    exfalso
    rcases (acceptLtB_val hx hy hdx hdy).mp h with ⟨heq, hs⟩ | hq
    · rcases (acceptLtB_val hy hx hdy hdx).mp hb with ⟨_, hs2⟩ | hq2
      · rw [strLtB_asymm _ _ hs] at hs2
        exact Bool.noConfusion hs2
      · rw [heq] at hq2
        exact absurd hq2 (lt_irrefl _)
    · rcases (acceptLtB_val hy hx hdy hdx).mp hb with ⟨heq2, _⟩ | hq2
      · rw [heq2] at hq
        exact absurd hq (lt_irrefl _)
      · exact absurd (hq.trans hq2) (lt_irrefl _)

theorem acceptLtB_negtrans {x y z : HElem}
    (hx : qvalKey x ≠ .nan) (hy : qvalKey y ≠ .nan) (hz : qvalKey z ≠ .nan)
    (hdx : ∀ m : ℤ, ∀ e : ℕ, qvalKey x = .finite m e → 0 < e)
    (hdy : ∀ m : ℤ, ∀ e : ℕ, qvalKey y = .finite m e → 0 < e)
    (hdz : ∀ m : ℤ, ∀ e : ℕ, qvalKey z = .finite m e → 0 < e)
    (h1 : acceptLtB y x = false) (h2 : acceptLtB z y = false) :
    acceptLtB z x = false := by
  cases hb : acceptLtB z x with
  | false => rfl
  | true =>
    exfalso
    have h1n : ¬((pfVal (qvalKey y) = pfVal (qvalKey x) ∧
        strLtB (strHE y) (strHE x) = true) ∨
        pfVal (qvalKey y) < pfVal (qvalKey x)) := by
      rw [← acceptLtB_val hy hx hdy hdx, h1]
      simp
    have h2n : ¬((pfVal (qvalKey z) = pfVal (qvalKey y) ∧
        strLtB (strHE z) (strHE y) = true) ∨
        pfVal (qvalKey z) < pfVal (qvalKey y)) := by
      rw [← acceptLtB_val hz hy hdz hdy, h2]
      simp
    push_neg at h1n h2n
    obtain ⟨h1a, h1b⟩ := h1n
    obtain ⟨h2a, h2b⟩ := h2n
    rcases (acceptLtB_val hz hx hdz hdx).mp hb with ⟨heq, hs⟩ | hq
    · have heq1 : pfVal (qvalKey y) = pfVal (qvalKey x) :=
        le_antisymm (heq ▸ h2b) h1b
      have heq2 : pfVal (qvalKey z) = pfVal (qvalKey y) := heq.trans heq1.symm
      have hnyx := h1a heq1
      have hnzy := h2a heq2
      rcases strLtB_trichotomy (strHE z) (strHE y) with h3 | h3 | h3
      · exact hnzy h3
      · rw [h3] at hs
        exact hnyx hs
      · exact hnyx (strLtB_trans _ _ _ h3 hs)
    · exact absurd (hq.trans_le (h1b.trans h2b)) (lt_irrefl _)

theorem acceptLtB_lttrans {x a b : HElem}
    (hx : qvalKey x ≠ .nan) (ha : qvalKey a ≠ .nan) (hb : qvalKey b ≠ .nan)
    (hdx : ∀ m : ℤ, ∀ e : ℕ, qvalKey x = .finite m e → 0 < e)
    (hda : ∀ m : ℤ, ∀ e : ℕ, qvalKey a = .finite m e → 0 < e)
    (hdb : ∀ m : ℤ, ∀ e : ℕ, qvalKey b = .finite m e → 0 < e)
    (h1 : acceptLtB x a = true) (h2 : acceptLtB b a = false) :
    acceptLtB x b = true := by
  have h2n : ¬((pfVal (qvalKey b) = pfVal (qvalKey a) ∧
      strLtB (strHE b) (strHE a) = true) ∨
      pfVal (qvalKey b) < pfVal (qvalKey a)) := by
    rw [← acceptLtB_val hb ha hdb hda, h2]
    simp
  push_neg at h2n
  obtain ⟨h2a, h2b⟩ := h2n
  rcases (acceptLtB_val hx ha hdx hda).mp h1 with ⟨heq, hs⟩ | hq
  · rcases lt_or_eq_of_le h2b with hlt | heq2
    · exact (acceptLtB_val hx hb hdx hdb).mpr (Or.inr (heq.trans_lt hlt))
    · have hnba := h2a heq2.symm
      rcases strLtB_trichotomy (strHE b) (strHE a) with h3 | h3 | h3
      · exact absurd h3 hnba
      · refine (acceptLtB_val hx hb hdx hdb).mpr (Or.inl ⟨heq.trans heq2, ?_⟩)
        rw [h3]
        exact hs
      · exact (acceptLtB_val hx hb hdx hdb).mpr
          (Or.inl ⟨heq.trans heq2, strLtB_trans _ _ _ hs h3⟩)
  · exact (acceptLtB_val hx hb hdx hdb).mpr (Or.inr (hq.trans_le h2b))

theorem acceptLtB_false_desc {a b : HElem}
    (ha : qvalKey a ≠ .nan) (hb2 : qvalKey b ≠ .nan)
    (hda : ∀ m : ℤ, ∀ e : ℕ, qvalKey a = .finite m e → 0 < e)
    (hdb : ∀ m : ℤ, ∀ e : ℕ, qvalKey b = .finite m e → 0 < e)
    (h : acceptLtB a b = false) :
    pfLtB (qvalKey b) (qvalKey a) = true ∨
      (pfEqB (qvalKey a) (qvalKey b) = true ∧ strLtB (strHE a) (strHE b) = false) := by
  have hn : ¬((pfVal (qvalKey a) = pfVal (qvalKey b) ∧
      strLtB (strHE a) (strHE b) = true) ∨
      pfVal (qvalKey a) < pfVal (qvalKey b)) := by
    rw [← acceptLtB_val ha hb2 hda hdb, h]
    simp
  push_neg at hn
  obtain ⟨hna, hnb⟩ := hn
  rcases lt_or_eq_of_le hnb with hlt | heq
  · exact Or.inl ((pfLtB_val hb2 ha hdb hda).mpr hlt)
  · right
    refine ⟨(pfEqB_val ha hb2 hda hdb).mpr heq.symm, ?_⟩
    have hns := hna heq.symm
    cases hss : strLtB (strHE a) (strHE b) with
    | false => rfl
    | true => exact absurd hss hns

theorem pairwise_of_short {α : Type} {R : α → α → Prop} :
    ∀ l : List α, l.length ≤ 1 → l.Pairwise R := by
  intro l h
  rcases l with _ | ⟨a, _ | ⟨b, t⟩⟩
  · exact List.Pairwise.nil
  · exact List.pairwise_singleton R a
  · simp at h

/-- C5 (amended): the concrete Accept example orders most-preferred
first, and every successful Accept-family `header_elements` result whose
elements' quality values are actual numbers — not `nan`, which `q=nan`
produces via `float('nan')` and against which every comparison is false —
is pairwise ordered by descending quality, ties broken by descending
lexicographic order of the elements' full renderings. -/
theorem headerElements_most_preferred :
    (headerElements "Accept".data
        "text/html;q=0.5, text/plain;q=0.9, text/*;q=0.1".data =
      .ok [.mk "text/plain".data [(['q'], .elem (.mk "0.9".data []))],
           .mk "text/html".data [(['q'], .elem (.mk "0.5".data []))],
           .mk "text/*".data [(['q'], .elem (.mk "0.1".data []))]]) ∧
    (∀ (f v : List Char) (l : List HElem),
       isAcceptFamily f = true →
       headerElements f v = .ok l →
       (∀ e ∈ l, ∃ k : PyFloat, qvalue e = .ok k ∧ k ≠ .nan) →
       l.Pairwise (fun a b =>
         pfLtB (qvalKey b) (qvalKey a) = true ∨
         (pfEqB (qvalKey a) (qvalKey b) = true ∧
           strLtB (strHE a) (strHE b) = false))) := by
  refine ⟨by rfl, ?_⟩
  intro f v l hf hl hfin
  rw [headerElements] at hl
  split at hl
  · have hnil : ([] : List HElem) = l := by simpa using hl
    rw [← hnil]
    exact List.Pairwise.nil
  · split at hl
    · rename_i hlen
      have hl2 : (splitHeader v).map acceptFromStr = l := by simpa using hl
      rw [← hl2]
      exact pairwise_of_short _ hlen
    · split at hl
      · exact Except.noConfusion hl
      · have hl2 : (pySort acceptLtB ((splitHeader v).map acceptFromStr)).reverse = l := by
          simpa using hl
        have hperm := pySort_perm acceptLtB ((splitHeader v).map acceptFromStr)
        have hmemp : ∀ e ∈ (splitHeader v).map acceptFromStr, e ∈ l := by
          intro e he
          rw [← hl2, List.mem_reverse]
          exact hperm.mem_iff.mpr he
        have hfin2 : ∀ e ∈ (splitHeader v).map acceptFromStr,
            qvalKey e ≠ .nan ∧ ∀ m : ℤ, ∀ d : ℕ, qvalKey e = .finite m d → 0 < d := by
          intro e he
          obtain ⟨k, hq, hk⟩ := hfin e (hmemp e he)
          have hkey : qvalKey e = k := by
            rw [qvalKey, hq]
          constructor
          · rw [hkey]
            exact hk
          · intro m d hmd
            rw [hkey] at hmd
            exact qvalue_den_pos (hmd ▸ hq)
        have hasym : ∀ x ∈ (splitHeader v).map acceptFromStr,
            ∀ y ∈ (splitHeader v).map acceptFromStr,
            acceptLtB x y = true → acceptLtB y x = false := by
          intro x hx y hy hxy
          obtain ⟨hx1, hx2⟩ := hfin2 x hx
          obtain ⟨hy1, hy2⟩ := hfin2 y hy
          exact acceptLtB_asymm hx1 hy1 hx2 hy2 hxy
        have hnegtr : ∀ x ∈ (splitHeader v).map acceptFromStr,
            ∀ y ∈ (splitHeader v).map acceptFromStr,
            ∀ z ∈ (splitHeader v).map acceptFromStr,
            acceptLtB y x = false → acceptLtB z y = false → acceptLtB z x = false := by
          intro x hx y hy z hz h1 h2
          obtain ⟨hx1, hx2⟩ := hfin2 x hx
          obtain ⟨hy1, hy2⟩ := hfin2 y hy
          obtain ⟨hz1, hz2⟩ := hfin2 z hz
          exact acceptLtB_negtrans hx1 hy1 hz1 hx2 hy2 hz2 h1 h2
        have hlttr : ∀ x ∈ (splitHeader v).map acceptFromStr,
            ∀ a ∈ (splitHeader v).map acceptFromStr,
            ∀ b ∈ (splitHeader v).map acceptFromStr,
            acceptLtB x a = true → acceptLtB b a = false → acceptLtB x b = true := by
          intro x hx a ha b hb h1 h2
          obtain ⟨hx1, hx2⟩ := hfin2 x hx
          obtain ⟨ha1, ha2⟩ := hfin2 a ha
          obtain ⟨hb1, hb2⟩ := hfin2 b hb
          exact acceptLtB_lttrans hx1 ha1 hb1 hx2 ha2 hb2 h1 h2
        have hsorted := pySort_sorted acceptLtB ((splitHeader v).map acceptFromStr)
          hasym hnegtr hlttr
        rw [← hl2, List.pairwise_reverse]
        refine hsorted.imp_of_mem ?_
        intro a b ha hb hab
        have ha2 := hperm.mem_iff.mp ha
        have hb3 := hperm.mem_iff.mp hb
        obtain ⟨ha1, had⟩ := hfin2 a ha2
        obtain ⟨hb1, hbd⟩ := hfin2 b hb3
        exact acceptLtB_false_desc hb1 ha1 hbd had hab

/-- C5 witness: the general ordering statement applied to the concrete
Accept example, whose three elements carry the numeric (non-`nan`)
qualities 0.9, 0.5 and 0.1. -/
theorem headerElements_most_preferred_witness :
    List.Pairwise (fun a b =>
        pfLtB (qvalKey b) (qvalKey a) = true ∨
        (pfEqB (qvalKey a) (qvalKey b) = true ∧
          strLtB (strHE a) (strHE b) = false))
      [HElem.mk "text/plain".data [(['q'], .elem (.mk "0.9".data []))],
       HElem.mk "text/html".data [(['q'], .elem (.mk "0.5".data []))],
       HElem.mk "text/*".data [(['q'], .elem (.mk "0.1".data []))]] :=
  headerElements_most_preferred.2 "Accept".data
    "text/html;q=0.5, text/plain;q=0.9, text/*;q=0.1".data
    [HElem.mk "text/plain".data [(['q'], .elem (.mk "0.9".data []))],
     HElem.mk "text/html".data [(['q'], .elem (.mk "0.5".data []))],
     HElem.mk "text/*".data [(['q'], .elem (.mk "0.1".data []))]]
    (by decide) (by rfl)
    (fun e he => by
      rcases List.mem_cons.mp he with rfl | he2
      · exact ⟨.finite 9 10, by rfl, by decide⟩
      · rcases List.mem_cons.mp he2 with rfl | he3
        · exact ⟨.finite 5 10, by rfl, by decide⟩
        · rcases List.mem_cons.mp he3 with rfl | he4
          · exact ⟨.finite 1 10, by rfl, by decide⟩
          · exact absurd he4 (List.not_mem_nil e))

/-- C5 counterexample to the claim as stated: `q=nan` parses as
`float('nan')`, every comparison against which is false, so CPython's
sort sees one long "ascending" run, leaves `a;q=3, b;q=nan, c;q=1` in
input order, and the reversed result has the `q=1` element first and the
`q=3` element last.  The pair at positions 0 and 2 of the returned list
— qualities 1 and 3, both ordinary numbers — satisfies neither
descending quality nor a tie, refuting the claimed ordering. -/
theorem headerElements_nan_counterexample :
    headerElements "Accept".data "a;q=3, b;q=nan, c;q=1".data =
      .ok [.mk ['c'] [(['q'], .elem (.mk ['1'] []))],
           .mk ['b'] [(['q'], .elem (.mk ['n', 'a', 'n'] []))],
           .mk ['a'] [(['q'], .elem (.mk ['3'] []))]] ∧
    qvalue (.mk ['c'] [(['q'], .elem (.mk ['1'] []))]) = .ok (.finite 1 1) ∧
    qvalue (.mk ['a'] [(['q'], .elem (.mk ['3'] []))]) = .ok (.finite 3 1) ∧
    ¬(pfLtB (qvalKey (.mk ['a'] [(['q'], .elem (.mk ['3'] []))]))
        (qvalKey (.mk ['c'] [(['q'], .elem (.mk ['1'] []))])) = true ∨
      (pfEqB (qvalKey (.mk ['c'] [(['q'], .elem (.mk ['1'] []))]))
          (qvalKey (.mk ['a'] [(['q'], .elem (.mk ['3'] []))])) = true ∧
        strLtB (strHE (.mk ['c'] [(['q'], .elem (.mk ['1'] []))]))
          (strHE (.mk ['a'] [(['q'], .elem (.mk ['3'] []))])) = false)) := by
  refine ⟨by rfl, by rfl, by rfl, ?_⟩
  decide

end Httputil
